import Mathlib

/-!
Shallow embedding of the siftail core (Go) for verification: the severity
engine (`internal/core/severity.go`), the ring buffer, visibility composer,
filters, find index and line sanitizer (`internal/core`).  Pure Go functions
become Lean functions; methods that mutate their receiver become functions
returning the updated structure.  Go strings are Lean `String`s (the claims
only exercise ASCII, where Go's byte-wise and Lean's char-wise views agree);
the sanitizer, which works on raw bytes and escape sequences, is embedded
over `List Nat` byte strings.  Go `uint64` sequence numbers are `Nat`
(2^64 appends are unreachable, so wrap-around never matters here).
-/

namespace Siftail

/-- ASCII lower-casing of one character, mirroring `strings.ToLower` on the
ASCII range used by the program's patterns and lines (codes 65-90 are
`A`-`Z`). -/
def lowerChar (c : Char) : Char :=
  if 65 ≤ c.toNat ∧ c.toNat ≤ 90 then Char.ofNat (c.toNat + 32) else c

/-- ASCII upper-casing of one character, mirroring `strings.ToUpper` on the
ASCII range (codes 97-122 are `a`-`z`). -/
def upperChar (c : Char) : Char :=
  if 97 ≤ c.toNat ∧ c.toNat ≤ 122 then Char.ofNat (c.toNat - 32) else c

/-- Model of `strings.ToLower` (ASCII range). -/
def goToLower (s : String) : String := ⟨s.toList.map lowerChar⟩

/-- Model of `strings.ToUpper` (ASCII range). -/
def goToUpper (s : String) : String := ⟨s.toList.map upperChar⟩

/-- Membership of a character in the cutset `"[]<>: "` used by
`strings.Trim(levelStr, "[]<>: ")` (codes 91, 93, 60, 62, 58, 32). -/
def inCutset (c : Char) : Bool := c.toNat ∈ [91, 93, 60, 62, 58, 32]

/-- Trim characters satisfying `p` from both ends of a list. -/
def trimBy (p : Char → Bool) (l : List Char) : List Char :=
  ((l.dropWhile p).reverse.dropWhile p).reverse

/-- Model of `strings.Trim(s, "[]<>: ")`. -/
def goTrimSet (s : String) : String := ⟨trimBy inCutset s.toList⟩

/-- ASCII whitespace, the fragment of `unicode.IsSpace` the program's
patterns can contain (space, tab, newline, carriage return). -/
def isSpaceCh (c : Char) : Bool := c.toNat ∈ [32, 9, 10, 13]

/-- Model of `strings.TrimSpace` (ASCII range). -/
def goTrimSpace (s : String) : String := ⟨trimBy isSpaceCh s.toList⟩

/-- Substring occurrence on character lists, used to model
`strings.Contains`. -/
def hasSub : List Char → List Char → Bool
  | [], pat => pat.isEmpty
  | a :: t, pat => pat.isPrefixOf (a :: t) || hasSub t pat

/-- Model of `strings.Contains s sub`. -/
def goContains (s sub : String) : Bool := hasSub s.toList sub.toList

/-- The normalisation applied to every discovered level name:
`strings.ToUpper(strings.Trim(levelStr, "[]<>: "))`. -/
def normalizeLevel (s : String) : String := goToUpper (goTrimSet s)

/-- `core.SourceKind` (`severity.go`). -/
inductive SourceKind where
  | SourceStdin
  | SourceFile
  | SourceDocker
deriving DecidableEq, Inhabited

/-- `core.Severity` (`severity.go`): `SevUnknown = 0` is the zero value. -/
inductive Severity where
  | SevUnknown
  | SevDebug
  | SevInfo
  | SevWarn
  | SevError
deriving DecidableEq, Inhabited

/-- `core.LogEvent` (`severity.go`).  `Time` stands in for the `time.Time`
field, which no verified operation inspects. -/
structure LogEvent where
  Seq : Nat
  Time : Nat
  Source : SourceKind
  Container : String
  Line : String
  LevelStr : String
  Level : Severity
deriving DecidableEq, Inhabited

/-- `core.LevelMap` (`severity.go`).  The two Go maps are embedded as
functions: a missing key reads as `none` (resp. `false`), matching Go's
zero-value map reads.  The mutex only serialises access and has no
sequential meaning. -/
structure LevelMap where
  IndexToName : List String
  NameToIndex : String → Option Nat
  Enabled : Nat → Bool

/-- Pointwise update of a `String`-keyed map, modelling Go map assignment
(`v = none` models `delete`). -/
def updName (f : String → Option Nat) (k : String) (v : Option Nat) :
    String → Option Nat :=
  fun x => if x = k then v else f x

/-- Pointwise update of an `Int`-indexed `bool` map (`Enabled`). -/
def updEnabled (f : Nat → Bool) (k : Nat) (v : Bool) : Nat → Bool :=
  fun x => if x = k then v else f x

/-- `core.NewLevelMap`: slots 1-4 pre-populated, all nine slots enabled. -/
def NewLevelMap : LevelMap where
  IndexToName := ["", "DEBUG", "INFO", "WARN", "ERROR", "", "", "", "", ""]
  NameToIndex := fun n =>
    if n = "DEBUG" then some 1
    else if n = "INFO" then some 2
    else if n = "WARN" then some 3
    else if n = "ERROR" then some 4
    else none
  Enabled := fun i => decide (1 ≤ i ∧ i ≤ 9)

/-- The `for i := 5; i <= 9` scan for the first free dynamic slot in
`LevelMap.GetOrAssignIndex`. -/
def firstFreeSlot (names : List String) : Option Nat :=
  [5, 6, 7, 8, 9].find? (fun i => names.getD i "" = "")

/-- `LevelMap.GetOrAssignIndex` (`severity.go` 74-108): returns the slot for
a level name, assigning slots 5-9 in discovery order and falling back to the
OTHER bucket (slot 9) once all are taken. -/
def LevelMap.GetOrAssignIndex (lm : LevelMap) (levelStr : String) :
    Nat × LevelMap :=
  let normalized := normalizeLevel levelStr
  match lm.NameToIndex normalized with
  | some index => (index, lm)
  | none =>
    match firstFreeSlot lm.IndexToName with
    | some i =>
      (i, { lm with
             IndexToName := lm.IndexToName.set i normalized
             NameToIndex := updName lm.NameToIndex normalized (some i)
             Enabled := updEnabled lm.Enabled i true })
    | none =>
      let lm1 :=
        if lm.IndexToName.getD 9 "" ≠ "OTHER" then
          let oldName := lm.IndexToName.getD 9 ""
          let n1 := if oldName ≠ "" ∧ oldName ≠ "OTHER" then
              updName lm.NameToIndex oldName none
            else lm.NameToIndex
          { lm with
            IndexToName := lm.IndexToName.set 9 "OTHER"
            NameToIndex := updName n1 "OTHER" (some 9)
            Enabled := updEnabled lm.Enabled 9 true }
        else lm
      (9, { lm1 with NameToIndex := updName lm1.NameToIndex normalized (some 9) })

/-- `LevelMap.severityToIndex` (`severity.go` 147-160). -/
def LevelMap.severityToIndex (level : Severity) : Nat :=
  match level with
  | Severity.SevDebug => 1
  | Severity.SevInfo => 2
  | Severity.SevWarn => 3
  | Severity.SevError => 4
  | _ => 9

/-- `LevelMap.IsEnabled` (`severity.go` 111-117). -/
def LevelMap.IsEnabled (lm : LevelMap) (level : Severity) : Bool :=
  lm.Enabled (LevelMap.severityToIndex level)

/-- `LevelMap.Toggle` (`severity.go` 120-128). -/
def LevelMap.Toggle (lm : LevelMap) (index : Nat) : LevelMap :=
  if index < 1 ∨ 9 < index then lm
  else { lm with Enabled := updEnabled lm.Enabled index (!lm.Enabled index) }

/-- `DefaultSeverityDetector.stringToSeverity` (`severity.go` 331-358).  The
detector's only state is its level map, so the embedding passes the map
through explicitly. -/
def stringToSeverity (lm : LevelMap) (levelStr : String) :
    Severity × LevelMap :=
  let normalized := normalizeLevel levelStr
  if normalized = "DEBUG" then (Severity.SevDebug, lm)
  else if normalized = "INFO" then (Severity.SevInfo, lm)
  else if normalized = "WARN" then (Severity.SevWarn, lm)
  else if normalized = "ERROR" then (Severity.SevError, lm)
  else if normalized = "WARNING" then
    (Severity.SevWarn, (lm.GetOrAssignIndex normalized).2)
  else if normalized = "ERR" then
    (Severity.SevError, (lm.GetOrAssignIndex normalized).2)
  else
    (Severity.SevUnknown, (lm.GetOrAssignIndex normalized).2)

/-- `core.TextMatcher` (filter source file).  `pattern` embeds the compiled
`regexp.Regexp` as an opaque predicate; it is consulted only when
`isRegex` is set (for substring matchers Go stores `nil` there, embedded as
the everywhere-false predicate). -/
structure TextMatcher where
  raw : String
  isRegex : Bool
  pattern : String → Bool
  lowered : String

/-- `core.NewMatcher`.  `compile` stands for `regexp.Compile("(?i)" + p)`:
`none` models a compile error, in which case `NewMatcher` errors out
(embedded as `none`). -/
def NewMatcher (compile : String → Option (String → Bool)) (s : String) :
    Option TextMatcher :=
  let original := s
  let t := goTrimSpace s
  if t = "" then
    some { raw := original, isRegex := false, pattern := fun _ => false,
           lowered := "" }
  else if 3 ≤ t.toList.length ∧ t.toList.headD ' ' = '/' ∧
      t.toList.getLastD ' ' = '/' then
    match compile ⟨(t.toList.drop 1).dropLast⟩ with
    | some p => some { raw := original, isRegex := true, pattern := p,
                       lowered := "" }
    | none => none
  else
    some { raw := original, isRegex := false, pattern := fun _ => false,
           lowered := goToLower t }

/-- `TextMatcher.Match`. -/
def TextMatcher.Match (m : TextMatcher) (line : String) : Bool :=
  if m.isRegex then m.pattern line
  else if goTrimSpace m.raw = "" then false
  else goContains (goToLower line) m.lowered

/-- `core.Filters`. -/
structure Filters where
  Include : List TextMatcher
  Exclude : List TextMatcher
  Highlights : List TextMatcher

/-- `core.NewFilters`. -/
def NewFilters : Filters := ⟨[], [], []⟩

/-- `Filters.ShouldShowLine`: excludes first (any hit hides), then the
include rule (empty include list shows everything). -/
def Filters.ShouldShowLine (f : Filters) (line : String) : Bool :=
  if f.Exclude.any (fun m => m.Match line) then false
  else if f.Include.length = 0 then true
  else f.Include.any (fun m => m.Match line)

/-- `Filters.ShouldHighlight`. -/
def Filters.ShouldHighlight (f : Filters) (line : String) : Bool :=
  f.Highlights.any (fun m => m.Match line)

/-- `core.VisiblePlan` (`severity_test.go` companion source).  The two Go
pointers are `Option`s; the `DockerVisible` map is an association list
(`nil` and the empty map both read as `[]`). -/
structure VisiblePlan where
  Include : Option Filters
  LevelMap : Option LevelMap
  DockerVisible : List (String × Bool)

/-- `core.ShouldShowEvent`: severity slot, then the docker allow-list, then
the include/exclude filters. -/
def ShouldShowEvent (event : LogEvent) (plan : VisiblePlan) : Bool :=
  (match plan.LevelMap with
   | some lm => lm.IsEnabled event.Level
   | none => true) &&
  (if plan.DockerVisible.length ≠ 0 then
     if event.Source = SourceKind.SourceDocker then
       match plan.DockerVisible.lookup event.Container with
       | some visible => visible
       | none => false
     else true
   else true) &&
  (match plan.Include with
   | some f => f.ShouldShowLine event.Line
   | none => true)

/-- `core.ComputeVisible`. -/
def ComputeVisible (events : List LogEvent) (plan : VisiblePlan) :
    List LogEvent :=
  if events.length = 0 then []
  else events.filter (fun e => ShouldShowEvent e plan)

/-- `core.Ring` (ring source file): fixed-capacity circular buffer. -/
structure Ring where
  cap : Nat
  buf : List LogEvent
  head : Nat
  size : Nat
  seq : Nat

/-- `core.NewRing`: a non-positive capacity falls back to the documented
default of 10000. -/
def NewRing (c : Nat) : Ring :=
  let cp := if c = 0 then 10000 else c
  { cap := cp, buf := List.replicate cp default, head := 0, size := 0,
    seq := 0 }

/-- `Ring.Append`: assigns the next sequence number, stores at `head`,
advances `head` modulo the capacity, grows `size` up to the capacity. -/
def Ring.Append (r : Ring) (e : LogEvent) : Ring × LogEvent :=
  let sq := r.seq + 1
  let e1 := { e with Seq := sq }
  ({ cap := r.cap
     buf := r.buf.set r.head e1
     head := (r.head + 1) % r.cap
     size := if r.size < r.cap then r.size + 1 else r.size
     seq := sq }, e1)

/-- `Ring.Snapshot`: oldest-to-newest copy of the live events. -/
def Ring.Snapshot (r : Ring) : List LogEvent :=
  if r.size = 0 then []
  else if r.size < r.cap then r.buf.take r.size
  else r.buf.drop r.head ++ r.buf.take r.head

/-- `Ring.GetBySeq`: bounds-check against the live window, then read the
slot and verify its stored sequence number. -/
def Ring.GetBySeq (r : Ring) (seq : Nat) : Option LogEvent :=
  if r.size = 0 ∨ seq = 0 then none
  else
    let oldestSeq := r.seq - r.size + 1
    if seq < oldestSeq ∨ r.seq < seq then none
    else
      let idx := if r.size < r.cap then seq - oldestSeq
        else (r.head + (seq - oldestSeq)) % r.cap
      let event := r.buf.getD idx default
      if event.Seq = seq then some event else none

/-- `Ring.Capacity`. -/
def Ring.Capacity (r : Ring) : Nat := r.cap

/-- `Ring.Size`. -/
def Ring.Size (r : Ring) : Nat := r.size

/-- `Ring.CurrentSeq`. -/
def Ring.CurrentSeq (r : Ring) : Nat := r.seq

/-- `Ring.OldestSeq`: 0 on an empty ring. -/
def Ring.OldestSeq (r : Ring) : Nat :=
  if r.size = 0 then 0 else r.seq - r.size + 1

/-- Append a whole list of events, collecting the events `Append` returns
(each with its assigned sequence number). -/
def appendList (r : Ring) : List LogEvent → Ring × List LogEvent
  | [] => (r, [])
  | e :: rest =>
    let p := r.Append e
    let q := appendList p.1 rest
    (q.1, p.2 :: q.2)

/-- The events of `xs` with sequence numbers `n+1, n+2, ...` assigned, the
reference shape `Append` produces when the ring's counter starts at `n`. -/
def assignFrom (n : Nat) : List LogEvent → List LogEvent
  | [] => []
  | e :: rest => { e with Seq := n + 1 } :: assignFrom (n + 1) rest

/-- Sequence numbers `1..N` assigned to a list of `N` events. -/
def assignSeqs (xs : List LogEvent) : List LogEvent := assignFrom 0 xs

/-- `core.FindIndex` (filter source file): sorted sequence numbers of find
hits with a cursor (`current = -1` means no selection, as in Go). -/
structure FindIndex where
  matcher : TextMatcher
  matchesList : List Nat
  current : Int
  maxCap : Nat

/-- `core.NewFindIndex`: the matcher starts as Go's zero `TextMatcher`. -/
def NewFindIndex (maxCapacity : Nat) : FindIndex where
  matcher := { raw := "", isRegex := false, pattern := fun _ => false,
               lowered := "" }
  matchesList := []
  current := -1
  maxCap := maxCapacity

/-- The `sort.Search(len(matches), func(i) { matches[i] >= seq })` call: on
the sorted match list, the first index whose entry is `≥ seq`. -/
def lowerB (l : List Nat) (s : Nat) : Nat :=
  (l.takeWhile (fun x => decide (x < s))).length

/-- `FindIndex.SetMatcher`: adopt a pattern, clear matches and cursor. -/
def FindIndex.SetMatcher (fi : FindIndex) (m : TextMatcher) : FindIndex :=
  { fi with matcher := m, matchesList := [], current := -1 }

/-- `FindIndex.AddMatch`: sorted insert, duplicate no-op, then capacity
eviction from the front with cursor adjustment. -/
def FindIndex.AddMatch (fi : FindIndex) (seq : Nat) : FindIndex :=
  let pos := lowerB fi.matchesList seq
  if pos < fi.matchesList.length ∧ fi.matchesList.getD pos 0 = seq then fi
  else
    let inserted := fi.matchesList.take pos ++ seq :: fi.matchesList.drop pos
    if fi.maxCap < inserted.length then
      let removeCount := inserted.length - fi.maxCap
      let newCur : Int :=
        if 0 ≤ fi.current then
          (if fi.current - (removeCount : Int) < 0 then -1
           else fi.current - (removeCount : Int))
        else fi.current
      { fi with matchesList := inserted.drop removeCount, current := newCur }
    else { fi with matchesList := inserted }

/-- `FindIndex.RemoveOldMatches`: drop every entry below `oldestSeq`,
adjusting or invalidating the cursor. -/
def FindIndex.RemoveOldMatches (fi : FindIndex) (oldestSeq : Nat) :
    FindIndex :=
  let cutoff := lowerB fi.matchesList oldestSeq
  if 0 < cutoff then
    let newCur : Int :=
      if 0 ≤ fi.current then
        (if fi.current - (cutoff : Int) < 0 then -1
         else fi.current - (cutoff : Int))
      else fi.current
    { fi with matchesList := fi.matchesList.drop cutoff, current := newCur }
  else fi

/-- `FindIndex.Next`: advance with wrap-around; 0 when the index is
empty. -/
def FindIndex.Next (fi : FindIndex) : Nat × FindIndex :=
  if fi.matchesList.length = 0 then (0, fi)
  else if fi.current < (fi.matchesList.length : Int) - 1 then
    let c := fi.current + 1
    (fi.matchesList.getD c.toNat 0, { fi with current := c })
  else (fi.matchesList.getD 0 0, { fi with current := 0 })

/-- `FindIndex.Prev`: step back with wrap-around; 0 when the index is
empty. -/
def FindIndex.Prev (fi : FindIndex) : Nat × FindIndex :=
  if fi.matchesList.length = 0 then (0, fi)
  else if 0 < fi.current then
    let c := fi.current - 1
    (fi.matchesList.getD c.toNat 0, { fi with current := c })
  else
    (fi.matchesList.getD (fi.matchesList.length - 1) 0,
     { fi with current := (fi.matchesList.length : Int) - 1 })

/-- `FindIndex.SetCurrentBySeq`: select the match holding `seq`, reporting
whether it was found. -/
def FindIndex.SetCurrentBySeq (fi : FindIndex) (seq : Nat) :
    Bool × FindIndex :=
  let pos := lowerB fi.matchesList seq
  if pos < fi.matchesList.length ∧ fi.matchesList.getD pos 0 = seq then
    (true, { fi with current := (pos : Int) })
  else (false, fi)

/-!
The line sanitizer (`SanitizeLine`) works on Go byte strings, embedded as
`List Nat`.  Each of its four `regexp.ReplaceAllString(s, "")` calls is
embedded as a left-to-right scan (`stripGo`) driven by a head-match
function returning the remainder after the leftmost match at the current
position; for these four patterns the regex engine's leftmost-first match
is exactly the deterministic scan coded here, because no star can give
back a byte that the continuation could accept.
-/

/-- Head match of the CSI pattern: `ESC [`, then parameter bytes
0x30-0x3f, then intermediate bytes 0x20-0x2f, then a final byte 0x40-0x7e;
returns the remainder after the match, or `none`. -/
def csiEnd (l : List Nat) : Option (List Nat) :=
  match l with
  | b1 :: b2 :: v =>
    if b1 = 27 ∧ b2 = 91 then
      let v1 := v.dropWhile (fun b => decide (48 ≤ b ∧ b ≤ 63))
      let v2 := v1.dropWhile (fun b => decide (32 ≤ b ∧ b ≤ 47))
      match v2 with
      | c :: w => if 64 ≤ c ∧ c ≤ 126 then some w else none
      | [] => none
    else none
  | _ => none

/-- Head match of the OSC pattern `ESC ] [\x20-\x7e]* (BEL | ESC \)`. -/
def oscEnd (l : List Nat) : Option (List Nat) :=
  match l with
  | b1 :: b2 :: v =>
    if b1 = 27 ∧ b2 = 93 then
      match v.dropWhile (fun b => decide (32 ≤ b ∧ b ≤ 126)) with
      | 7 :: w => some w
      | 27 :: 92 :: w => some w
      | _ => none
    else none
  | _ => none

/-- The lazy body of the DCS-like pattern: consume any byte until the
first `ESC \` or `BEL` terminator (the regex tries the two-byte `ESC \`
alternative before `BEL` at each position; the conditions are disjoint). -/
def dcsScan : List Nat → Option (List Nat)
  | [] => none
  | b :: rest =>
    if b = 27 ∧ rest.head? = some 92 then some rest.tail
    else if b = 7 then some rest
    else dcsScan rest

/-- Head match of `ESC [P^_X] (?s:.*?) (ESC \ | BEL)`. -/
def dcsEnd (l : List Nat) : Option (List Nat) :=
  match l with
  | b1 :: b2 :: v =>
    if b1 = 27 ∧ (b2 = 80 ∨ b2 = 94 ∨ b2 = 95 ∨ b2 = 88) then dcsScan v
    else none
  | _ => none

/-- Head match of the single-escape pattern `ESC [0-9A-Za-z]`. -/
def escEnd (l : List Nat) : Option (List Nat) :=
  match l with
  | b1 :: b2 :: w =>
    if b1 = 27 ∧ ((48 ≤ b2 ∧ b2 ≤ 57) ∨ (65 ≤ b2 ∧ b2 ≤ 90) ∨
        (97 ≤ b2 ∧ b2 ≤ 122)) then some w
    else none
  | _ => none

/-- Fuelled left-to-right deletion of every leftmost, non-overlapping
match, the behaviour of `ReplaceAllString(s, "")`; every head matcher
strictly shrinks the list, so `fuel = l.length` never runs out. -/
def stripGo (f : List Nat → Option (List Nat)) : Nat → List Nat → List Nat
  | 0, l => l
  | _ + 1, [] => []
  | fuel + 1, b :: rest =>
    match f (b :: rest) with
    | some w => stripGo f fuel w
    | none => b :: stripGo f fuel rest

/-- One `ReplaceAllString(s, "")` pass for head matcher `f`. -/
def stripAllOf (f : List Nat → Option (List Nat)) (l : List Nat) :
    List Nat := stripGo f l.length l

/-- The CR normalisation step of `SanitizeLine`: keep one trailing CR,
turn every other CR into a space. -/
def crNorm (s : List Nat) : List Nat :=
  if 13 ∈ s then
    if s.getLast? = some 13 then
      (s.dropLast.map (fun b => if b = 13 then 32 else b)) ++ [13]
    else s.map (fun b => if b = 13 then 32 else b)
  else s

/-- The final control-character pass of `SanitizeLine`: every C0 byte
except tab, newline and (the already-normalised) CR becomes a space. -/
def c0sp (b : Nat) : Nat :=
  if b < 32 then (if b = 9 ∨ b = 10 ∨ b = 13 then b else 32) else b

/-- `core.SanitizeLine` (sanitizer source file): strip OSC, DCS-like, CSI
and single-escape sequences, normalise CR, remove backspaces, then replace
the remaining C0 bytes. -/
def SanitizeLine (s : List Nat) : List Nat :=
  if s = [] then s
  else
    let s1 := stripAllOf oscEnd s
    let s2 := stripAllOf dcsEnd s1
    let s3 := stripAllOf csiEnd s2
    let s4 := stripAllOf escEnd s3
    let s5 := crNorm s4
    let s6 := s5.filter (fun b => b ≠ 8)
    s6.map c0sp

/-- ASCII bytes of a Lean string, for writing concrete sanitizer inputs. -/
def bytesOf (s : String) : List Nat := s.toList.map Char.toNat

/-- An event as the tests build them: only `Line` and `Level` set, every
other field the Go zero value. -/
def mkEvent (line : String) (lv : Severity) : LogEvent :=
  { Seq := 0, Time := 0, Source := SourceKind.SourceStdin, Container := "",
    Line := line, LevelStr := "", Level := lv }

/-- Boolean normal form of `ShouldShowLine`: no exclude hit, and an empty
include list or an include hit. -/
theorem shouldShowLine_eq (f : Filters) (line : String) :
    f.ShouldShowLine line =
      ((!f.Exclude.any (fun m => m.Match line)) &&
        (f.Include.isEmpty || f.Include.any (fun m => m.Match line))) := by
  unfold Filters.ShouldShowLine
  cases hex : f.Exclude.any (fun m => m.Match line) with
  | true => simp [hex]
  | false =>
    by_cases hlen : f.Include.length = 0
    · have h0 : f.Include = [] := List.length_eq_zero.mp hlen
      simp [hex, hlen, h0]
    · have h0 : ¬f.Include = [] := fun h => hlen (by simp [h])
      have h1 : f.Include.isEmpty = false := by simp [List.isEmpty_iff, h0]
      simp [hex, hlen, h1]

/-- C7: for every filter set and line, `ShouldShowLine` is true exactly when
(no include matcher exists, or some include matcher matches) and no exclude
matcher matches; the highlight list never changes the outcome; and with
include `{"error"}` and exclude `{"ignore"}`, the line `"error ignore this"`
is hidden, `"error in prod"` is shown, and `"info only"` is hidden. -/
theorem filters_shouldShowLine_rule :
    (∀ (f : Filters) (line : String),
      f.ShouldShowLine line = true ↔
        ((f.Include = [] ∨ ∃ m ∈ f.Include, m.Match line = true) ∧
          ∀ m ∈ f.Exclude, m.Match line = false)) ∧
    (∀ (f : Filters) (hl : List TextMatcher) (line : String),
      Filters.ShouldShowLine { f with Highlights := hl } line =
        f.ShouldShowLine line) ∧
    (∀ compile : String → Option (String → Bool),
      ∃ mi mx, NewMatcher compile "error" = some mi ∧
        NewMatcher compile "ignore" = some mx ∧
        (Filters.mk [mi] [mx] []).ShouldShowLine "error ignore this" = false ∧
        (Filters.mk [mi] [mx] []).ShouldShowLine "error in prod" = true ∧
        (Filters.mk [mi] [mx] []).ShouldShowLine "info only" = false) := by
  refine ⟨?_, ?_, ?_⟩
  · intro f line
    rw [shouldShowLine_eq]
    simp only [Bool.and_eq_true, Bool.or_eq_true, Bool.not_eq_true',
      List.any_eq_true, List.any_eq_false, List.isEmpty_iff,
      Bool.not_eq_true]
    tauto
  · intro f hl line
    rw [shouldShowLine_eq, shouldShowLine_eq]
  · intro compile
    refine ⟨_, _, rfl, rfl, ?_, ?_, ?_⟩ <;> rfl

/-- Reading back the data of a literal `String.mk`. -/
theorem toList_mk (l : List Char) : (⟨l⟩ : String).toList = l := rfl

/-- Valid code points read back through `Char.ofNat`. -/
theorem charOfNatToNat (n : Nat) (h : n < 55296) : (Char.ofNat n).toNat = n := by
  unfold Char.ofNat
  rw [dif_pos (Or.inl h)]
  rfl

/-- Upper-casing an already upper-cased character changes nothing. -/
theorem upperChar_upperChar (c : Char) :
    upperChar (upperChar c) = upperChar c := by
  by_cases h : 97 ≤ c.toNat ∧ c.toNat ≤ 122
  · have h1 : (upperChar c).toNat = c.toNat - 32 := by
      unfold upperChar
      rw [if_pos h]
      exact charOfNatToNat _ (by omega)
    have h2 : ¬(97 ≤ (upperChar c).toNat ∧ (upperChar c).toNat ≤ 122) := by
      rw [h1]; omega
    conv_lhs => rw [upperChar]
    rw [if_neg h2]
  · have h1 : upperChar c = c := by unfold upperChar; rw [if_neg h]
    simp [h1]

/-- Upper-casing never moves a character into or out of the trim cutset. -/
theorem inCutset_upperChar (c : Char) : inCutset (upperChar c) = inCutset c := by
  by_cases h : 97 ≤ c.toNat ∧ c.toNat ≤ 122
  · have h1 : (upperChar c).toNat = c.toNat - 32 := by
      unfold upperChar
      rw [if_pos h]
      exact charOfNatToNat _ (by omega)
    have e1 : ¬(upperChar c).toNat ∈ ([91, 93, 60, 62, 58, 32] : List Nat) := by
      rw [h1]; simp; omega
    have e2 : ¬c.toNat ∈ ([91, 93, 60, 62, 58, 32] : List Nat) := by
      simp; omega
    simp [inCutset, e1, e2]
  · have h1 : upperChar c = c := by unfold upperChar; rw [if_neg h]
    rw [h1]

/-- A list starting with a character the predicate rejects is fixed by
`dropWhile`. -/
theorem dropWhile_eq_self_of_head (p : Char → Bool) (l : List Char) (a : Char)
    (hh : l.head? = some a) (ha : p a = false) : l.dropWhile p = l := by
  cases l with
  | nil => rfl
  | cons b t =>
    have : b = a := by simpa using hh
    subst this
    simp [List.dropWhile_cons, ha]

/-- The head of a `dropWhile` result always fails the predicate. -/
theorem head_dropWhile_false (p : Char → Bool) (l : List Char) (a : Char)
    (hh : (l.dropWhile p).head? = some a) : p a = false := by
  induction l with
  | nil => simp at hh
  | cons b t ih =>
    by_cases hb : p b
    · rw [List.dropWhile_cons_of_pos hb] at hh
      exact ih hh
    · rw [List.dropWhile_cons_of_neg hb] at hh
      have : b = a := by simpa using hh
      subst this
      simpa using hb

/-- Trimming is idempotent. -/
theorem trimBy_idem (p : Char → Bool) (l : List Char) :
    trimBy p (trimBy p l) = trimBy p l := by
  unfold trimBy
  generalize hu : l.dropWhile p = u
  generalize hv : u.reverse.dropWhile p = v
  have step1 : v.reverse.dropWhile p = v.reverse := by
    cases hvl : v.getLast? with
    | none =>
      have hv0 : v = [] := by
        cases v with
        | nil => rfl
        | cons a t => exact absurd hvl (Option.isSome_iff_ne_none.mp rfl)
      rw [hv0]
      rfl
    | some b =>
      have hvne : v ≠ [] := by
        intro h
        rw [h] at hvl
        simp at hvl
      have hsuf : v <:+ u.reverse := hv ▸ List.dropWhile_suffix p
      obtain ⟨w, hw⟩ := hsuf
      have hlast : u.reverse.getLast? = v.getLast? := by
        rw [← hw]
        exact List.getLast?_append_of_ne_nil w hvne
      rw [List.getLast?_reverse] at hlast
      have hb : p b = false := by
        refine head_dropWhile_false p l b ?_
        rw [hu, hlast, hvl]
      exact dropWhile_eq_self_of_head p _ b
        (by rw [List.head?_reverse]; exact hvl) hb
  rw [step1, List.reverse_reverse, ← hv, List.dropWhile_idempotent]

/-- Trimming the cutset commutes with ASCII upper-casing. -/
theorem trimBy_map_upper (l : List Char) :
    trimBy inCutset (l.map upperChar) = (trimBy inCutset l).map upperChar := by
  have hdw : ∀ m : List Char,
      (m.map upperChar).dropWhile inCutset =
        (m.dropWhile inCutset).map upperChar := by
    intro m
    rw [List.dropWhile_map]
    have hfun : (inCutset ∘ upperChar) = inCutset := funext inCutset_upperChar
    rw [hfun]
  unfold trimBy
  rw [hdw, ← List.map_reverse, hdw, ← List.map_reverse]

/-- Normalising a level name twice is the same as normalising it once. -/
theorem normalizeLevel_idem (s : String) :
    normalizeLevel (normalizeLevel s) = normalizeLevel s := by
  unfold normalizeLevel goToUpper goTrimSet
  apply congrArg String.mk
  rw [toList_mk, toList_mk, toList_mk]
  rw [trimBy_map_upper, trimBy_idem, List.map_map]
  exact List.map_eq_map_iff.mpr (fun c _ => upperChar_upperChar c)

/-- Whatever branch `GetOrAssignIndex` takes, the normalised name ends up
with a slot in the reverse map. -/
theorem getOrAssign_registers (lm : LevelMap) (t : String) :
    (lm.GetOrAssignIndex t).2.NameToIndex (normalizeLevel t) ≠ none := by
  unfold LevelMap.GetOrAssignIndex
  cases h : lm.NameToIndex (normalizeLevel t) with
  | some i => simp [h]
  | none =>
    cases hf : firstFreeSlot lm.IndexToName with
    | some i => simp [h, hf, updName]
    | none => simp [h, hf, updName]

/-- C4 counterexample: the discovered name WARNING is not one of the four
canonical names, yet it maps to the fixed Warn severity rather than the
unclassified one. -/
theorem stringToSeverity_warning_cx :
    (stringToSeverity NewLevelMap "WARNING").1 = Severity.SevWarn ∧
    normalizeLevel "WARNING" ∉ (["DEBUG", "INFO", "WARN", "ERROR"] : List String) ∧
    Severity.SevWarn ≠ Severity.SevUnknown := by
  refine ⟨rfl, by decide, by decide⟩

/-- C4 (amended): the four canonical names map to their fixed severities
and leave the level map — and hence the severity table's slots — entirely
unchanged; WARNING and ERR also map to fixed severities (Warn resp. Error)
while additionally taking a dynamic slot, and every other discovered name
maps to the unclassified severity; every name other than the four
canonical ones occupies a slot in the severity table afterwards. -/
theorem stringToSeverity_classification (lm : LevelMap) (s : String) :
    ((stringToSeverity lm s).1 =
      (if normalizeLevel s = "DEBUG" then Severity.SevDebug
       else if normalizeLevel s = "INFO" then Severity.SevInfo
       else if normalizeLevel s = "WARN" then Severity.SevWarn
       else if normalizeLevel s = "ERROR" then Severity.SevError
       else if normalizeLevel s = "WARNING" then Severity.SevWarn
       else if normalizeLevel s = "ERR" then Severity.SevError
       else Severity.SevUnknown)) ∧
    (normalizeLevel s = "DEBUG" ∨ normalizeLevel s = "INFO" ∨
      normalizeLevel s = "WARN" ∨ normalizeLevel s = "ERROR" →
      (stringToSeverity lm s).2 = lm) ∧
    (normalizeLevel s ≠ "DEBUG" → normalizeLevel s ≠ "INFO" →
      normalizeLevel s ≠ "WARN" → normalizeLevel s ≠ "ERROR" →
      (stringToSeverity lm s).2.NameToIndex (normalizeLevel s) ≠ none) := by
  have hr : (lm.GetOrAssignIndex (normalizeLevel s)).2.NameToIndex
      (normalizeLevel s) ≠ none := by
    have := getOrAssign_registers lm (normalizeLevel s)
    rwa [normalizeLevel_idem] at this
  refine ⟨?_, ?_, ?_⟩
  · simp only [stringToSeverity]
    split_ifs <;> rfl
  · intro hc
    simp only [stringToSeverity]
    rcases hc with h | h | h | h
    · rw [if_pos h]
    · rw [if_neg (by rw [h]; decide), if_pos h]
    · rw [if_neg (by rw [h]; decide), if_neg (by rw [h]; decide), if_pos h]
    · rw [if_neg (by rw [h]; decide), if_neg (by rw [h]; decide),
        if_neg (by rw [h]; decide), if_pos h]
  · intro hd hi hw he
    simp only [stringToSeverity]
    rw [if_neg hd, if_neg hi, if_neg hw, if_neg he]
    by_cases h5 : normalizeLevel s = "WARNING"
    · rw [if_pos h5]
      exact hr
    · rw [if_neg h5]
      by_cases h6 : normalizeLevel s = "ERR"
      · rw [if_pos h6]
        exact hr
      · rw [if_neg h6]
        exact hr

/-- C3: discovering `[NOTICE]`, `[ALERT]`, `[CUSTOM1]`, `[CUSTOM2]`,
`[CUSTOM3]` in that order assigns dynamic slots 5-9; a sixth new name
(`[OVERFLOW]`) maps to slot 9 whose display name becomes the OTHER
overflow label; and in general, whenever slots 5-9 are all occupied, any
name not yet in the table is assigned slot 9 and slot 9's display name
becomes OTHER. -/
theorem getOrAssignIndex_dynamic_slots :
    (let p1 := NewLevelMap.GetOrAssignIndex "[NOTICE]"
     let p2 := p1.2.GetOrAssignIndex "[ALERT]"
     let p3 := p2.2.GetOrAssignIndex "[CUSTOM1]"
     let p4 := p3.2.GetOrAssignIndex "[CUSTOM2]"
     let p5 := p4.2.GetOrAssignIndex "[CUSTOM3]"
     let p6 := p5.2.GetOrAssignIndex "[OVERFLOW]"
     p1.1 = 5 ∧ p2.1 = 6 ∧ p3.1 = 7 ∧ p4.1 = 8 ∧ p5.1 = 9 ∧
       p6.1 = 9 ∧ p6.2.IndexToName.getD 9 "" = "OTHER") ∧
    (∀ (lm : LevelMap) (s : String),
      (∀ i, 5 ≤ i → i ≤ 9 → lm.IndexToName.getD i "" ≠ "") →
      lm.NameToIndex (normalizeLevel s) = none →
      (lm.GetOrAssignIndex s).1 = 9 ∧
        (lm.GetOrAssignIndex s).2.IndexToName.getD 9 "" = "OTHER") := by
  constructor
  · exact ⟨rfl, rfl, rfl, rfl, rfl, rfl, rfl⟩
  · intro lm s hfree hnone
    have hf : firstFreeSlot lm.IndexToName = none := by
      have h5 := hfree 5 (by omega) (by omega)
      have h6 := hfree 6 (by omega) (by omega)
      have h7 := hfree 7 (by omega) (by omega)
      have h8 := hfree 8 (by omega) (by omega)
      have h9 := hfree 9 (by omega) (by omega)
      simp only [List.getD_eq_getElem?_getD] at h5 h6 h7 h8 h9
      simp [firstFreeSlot, List.find?, h5, h6, h7, h8, h9]
    have hlen : 9 < lm.IndexToName.length := by
      by_contra hle
      push_neg at hle
      exact hfree 9 (by omega) (by omega) (List.getD_eq_default _ _ (by omega))
    simp only [LevelMap.GetOrAssignIndex, hnone, hf]
    refine ⟨trivial, ?_⟩
    by_cases h9 : lm.IndexToName.getD 9 "" = "OTHER"
    · simp only [List.getD_eq_getElem?_getD] at h9 ⊢
      rw [if_neg (not_not_intro h9)]
      exact h9
    · simp only [List.getD_eq_getElem?_getD] at h9 ⊢
      rw [if_pos h9, ← List.getD_eq_getElem?_getD,
        List.getD_eq_getElem _ _ (by simpa using hlen), List.getElem_set_self]

/-- C2: an event is kept by the visibility composer exactly when its
severity slot is enabled, its container passes the non-empty docker
allow-list (container events only; absence hides), and its line passes the
filter set; `ComputeVisible` keeps the original order; and the end-to-end
run (severities Debug, Info, Warn, Error, Debug, Error appended to a ring,
slot 1 toggled off) yields exactly the non-Debug events in order. -/
theorem computeVisible_rule :
    (∀ (e : LogEvent) (plan : VisiblePlan),
      ShouldShowEvent e plan = true ↔
        ((∀ lm, plan.LevelMap = some lm → lm.IsEnabled e.Level = true) ∧
          (e.Source = SourceKind.SourceDocker → plan.DockerVisible ≠ [] →
            plan.DockerVisible.lookup e.Container = some true) ∧
          (∀ f, plan.Include = some f → f.ShouldShowLine e.Line = true))) ∧
    (∀ (events : List LogEvent) (plan : VisiblePlan),
      ComputeVisible events plan =
        events.filter (fun e => ShouldShowEvent e plan)) ∧
    (ComputeVisible
        ((appendList (NewRing 10)
            [mkEvent "debug message" Severity.SevDebug,
             mkEvent "info message" Severity.SevInfo,
             mkEvent "warning message" Severity.SevWarn,
             mkEvent "error message" Severity.SevError,
             mkEvent "another debug" Severity.SevDebug,
             mkEvent "another error" Severity.SevError]).1.Snapshot)
        { Include := some NewFilters, LevelMap := some (NewLevelMap.Toggle 1),
          DockerVisible := [] } =
      [{ mkEvent "info message" Severity.SevInfo with Seq := 2 },
       { mkEvent "warning message" Severity.SevWarn with Seq := 3 },
       { mkEvent "error message" Severity.SevError with Seq := 4 },
       { mkEvent "another error" Severity.SevError with Seq := 6 }]) := by
  refine ⟨?_, ?_, ?_⟩
  · intro e plan
    rcases plan with ⟨inc, lm, dv⟩
    unfold ShouldShowEvent
    simp only [Bool.and_eq_true]
    cases lm <;> cases inc <;>
      by_cases hsrc : e.Source = SourceKind.SourceDocker <;>
        cases hdv : dv with
        | nil => simp_all
        | cons a t =>
          cases hlk : List.lookup e.Container (a :: t) <;>
            simp_all [and_assoc]
  · intro events plan
    unfold ComputeVisible
    by_cases h : events.length = 0
    · rw [if_pos h]
      rw [List.length_eq_zero.mp h]
      rfl
    · rw [if_neg h]
  · decide

/-! ### Ring buffer theorems -/

theorem assignFrom_length (n : Nat) (xs : List LogEvent) :
    (assignFrom n xs).length = xs.length := by
  induction xs generalizing n with
  | nil => rfl
  | cons e rest ih => simp [assignFrom, ih]

theorem assignFrom_append_one (n : Nat) (xs : List LogEvent) (e : LogEvent) :
    assignFrom n (xs ++ [e]) =
      assignFrom n xs ++ [{ e with Seq := n + xs.length + 1 }] := by
  induction xs generalizing n with
  | nil => simp [assignFrom]
  | cons a rest ih =>
    simp only [List.cons_append, assignFrom, List.length_cons, List.append_eq]
    rw [ih (n + 1),
      show n + (rest.length + 1) + 1 = n + 1 + rest.length + 1 by omega]

theorem assignFrom_getD_seq (n : Nat) (xs : List LogEvent) (i : Nat)
    (h : i < xs.length) :
    ((assignFrom n xs).getD i default).Seq = n + i + 1 := by
  induction xs generalizing n i with
  | nil => simp at h
  | cons e rest ih =>
    cases i with
    | zero => rfl
    | succ j =>
      have hj : j < rest.length := by simpa using h
      have := ih (n + 1) j hj
      simpa [assignFrom, Nat.add_assoc, Nat.add_comm, Nat.add_left_comm]
        using this

theorem appendList_snd (r : Ring) (xs : List LogEvent) :
    (appendList r xs).2 = assignFrom r.seq xs := by
  induction xs generalizing r with
  | nil => rfl
  | cons e rest ih =>
    show (r.Append e).2 :: (appendList (r.Append e).1 rest).2 = _
    rw [ih]
    rfl

theorem appendList_cap (r : Ring) (xs : List LogEvent) :
    (appendList r xs).1.cap = r.cap := by
  induction xs generalizing r with
  | nil => rfl
  | cons e rest ih => simpa [appendList, Ring.Append] using ih _

/-- Splitting a modulus-bounded sum's remainder without `%`. -/
theorem add_mod_of_lt_lt (a b c : Nat) (ha : a < c) (hb : b < c) :
    (a + b) % c = if a + b < c then a + b else a + b - c := by
  split
  · exact Nat.mod_eq_of_lt (by assumption)
  · rw [Nat.mod_eq_sub_mod (by omega), Nat.mod_eq_of_lt (by omega)]

/-- The successor of a position below the capacity, modulo the capacity. -/
theorem succ_mod_of_lt (a c : Nat) (h : a < c) :
    (a + 1) % c = if a + 1 = c then 0 else a + 1 := by
  split
  · simp_all [Nat.mod_self]
  · exact Nat.mod_eq_of_lt (by omega)

/-- The coupling invariant between a ring and the full history of events
appended to it since `NewRing`; `assignSeqs hist` is the stored shape of
that history.  The live window is characterised without `%`: when not yet
full the buffer is an initial segment, when full it wraps at `head`. -/
structure RingRep (r : Ring) (hist : List LogEvent) : Prop where
  hcap : 0 < r.cap
  hlen : r.buf.length = r.cap
  hseq : r.seq = hist.length
  hsize : r.size = min r.seq r.cap
  hhead : r.head < r.cap
  hnf : r.seq < r.cap → r.head = r.seq
  hcontent₁ : r.seq < r.cap → ∀ k, k < r.size →
    r.buf.getD k default = (assignSeqs hist).getD k default
  hcontent₂ : r.cap ≤ r.seq → ∀ k, k < r.cap - r.head →
    r.buf.getD (r.head + k) default =
      (assignSeqs hist).getD (hist.length - r.cap + k) default
  hcontent₃ : r.cap ≤ r.seq → ∀ k, k < r.head →
    r.buf.getD k default =
      (assignSeqs hist).getD (hist.length - r.head + k) default

theorem ringRep_new (C : Nat) : RingRep (NewRing C) [] := by
  have hc : (NewRing C).cap = (if C = 0 then 10000 else C) := rfl
  have hbuf : (NewRing C).buf =
      List.replicate (if C = 0 then 10000 else C) default := rfl
  have hhead0 : (NewRing C).head = 0 := rfl
  have hseq0 : (NewRing C).seq = 0 := rfl
  have hsize0 : (NewRing C).size = 0 := rfl
  have hcap : 0 < (NewRing C).cap := by
    rw [hc]; split <;> omega
  refine ⟨hcap, ?_, rfl, ?_, ?_, ?_, ?_, ?_, ?_⟩
  · rw [hbuf, hc]
    exact List.length_replicate _ _
  · rw [hsize0, hseq0]
    exact (Nat.zero_min _).symm
  · rw [hhead0]
    exact hcap
  · intro _
    rw [hhead0, hseq0]
  · intro _ k hk
    rw [hsize0] at hk
    exact absurd hk (by omega)
  · intro habs
    rw [hseq0] at habs
    omega
  · intro habs
    rw [hseq0] at habs
    omega

theorem ringRep_append {r : Ring} {hist : List LogEvent} (h : RingRep r hist)
    (e : LogEvent) : RingRep (r.Append e).1 (hist ++ [e]) := by
  obtain ⟨hcap, hlen, hseq, hsize, hhead, hnf, hc1, hc2, hc3⟩ := h
  have hc' : (r.Append e).1.cap = r.cap := rfl
  have hb' : (r.Append e).1.buf =
      r.buf.set r.head { e with Seq := r.seq + 1 } := rfl
  have hh' : (r.Append e).1.head = (r.head + 1) % r.cap := rfl
  have hs' : (r.Append e).1.size =
      (if r.size < r.cap then r.size + 1 else r.size) := rfl
  have hq' : (r.Append e).1.seq = r.seq + 1 := rfl
  have hA : assignSeqs (hist ++ [e]) =
      assignSeqs hist ++ [{ e with Seq := hist.length + 1 }] := by
    unfold assignSeqs
    rw [assignFrom_append_one]
    simp
  have hlenA : (assignSeqs hist).length = hist.length := assignFrom_length 0 hist
  have hlen' : (hist ++ [e]).length = hist.length + 1 := by simp
  have hget_ne : ∀ i, i ≠ r.head →
      ((r.Append e).1.buf).getD i default = r.buf.getD i default := by
    intro i hne
    rw [hb']
    by_cases hi : i < r.buf.length
    · rw [List.getD_eq_getElem _ _ (by simpa using hi),
        List.getD_eq_getElem _ _ hi,
        List.getElem_set_ne (fun hcontra => hne hcontra.symm)]
    · rw [List.getD_eq_default _ _ (by simpa using (by omega : r.buf.length ≤ i)),
        List.getD_eq_default _ _ (by omega)]
  have hget_eq : ((r.Append e).1.buf).getD r.head default =
      { e with Seq := r.seq + 1 } := by
    rw [hb']
    rw [List.getD_eq_getElem _ _ (by simp; omega), List.getElem_set_self]
  have hA_old : ∀ i, i < hist.length →
      (assignSeqs (hist ++ [e])).getD i default =
        (assignSeqs hist).getD i default := by
    intro i hi
    rw [hA, List.getD_append _ _ _ _ (by rwa [hlenA])]
  have hA_new : (assignSeqs (hist ++ [e])).getD hist.length default =
      { e with Seq := hist.length + 1 } := by
    rw [hA, List.getD_append_right _ _ _ _ (by rw [hlenA])]
    simp [hlenA]
  refine ⟨?_, ?_, ?_, ?_, ?_, ?_, ?_, ?_, ?_⟩
  · rw [hc']
    exact hcap
  · rw [hb', hc', List.length_set]
    exact hlen
  · rw [hq', hseq, hlen']
  · rw [hq', hs', hc']
    split <;> omega
  · rw [hh', hc']
    exact Nat.mod_lt _ hcap
  · intro hlt
    rw [hq', hc'] at hlt
    rw [hh', hq', hnf (by omega), Nat.mod_eq_of_lt (by omega)]
  · -- still not full after the append
    intro hlt k hk
    rw [hq', hc'] at hlt
    rw [hs'] at hk
    have hslt : r.seq < r.cap := by omega
    have hd : r.head = r.seq := hnf hslt
    have hsz : r.size = r.seq := by omega
    rw [if_pos (by omega)] at hk
    by_cases hke : k = r.seq
    · subst hke
      rw [← hd, hget_eq, hd, hseq]
      exact hA_new.symm
    · have hklt : k < r.seq := by omega
      rw [hget_ne k (by omega), hc1 hslt k (by omega),
        ← hA_old k (by omega)]
  · -- full after the append
    intro hcaple k hk
    rw [hq', hc'] at hcaple
    rw [hh', hc'] at hk ⊢
    rw [hlen']
    rw [succ_mod_of_lt r.head r.cap hhead] at hk ⊢
    by_cases hfull : r.cap ≤ r.seq
    · -- was already full
      by_cases hwrap : r.head + 1 = r.cap
      · rw [if_pos hwrap] at hk ⊢
        by_cases hke : k = r.head
        · subst hke
          rw [Nat.zero_add, hget_eq,
            show hist.length + 1 - r.cap + r.head = hist.length by omega,
            hA_new]
          rw [hseq]
        · have hklt : k < r.head := by omega
          rw [Nat.zero_add, hget_ne k hke, hc3 hfull k hklt,
            show hist.length - r.head + k = hist.length + 1 - r.cap + k by
              omega]
          rw [← hA_old _ (by omega)]
      · rw [if_neg hwrap] at hk ⊢
        have hne : r.head + 1 + k ≠ r.head := by omega
        rw [hget_ne _ hne,
          show r.head + 1 + k = r.head + (k + 1) by omega,
          hc2 hfull (k + 1) (by omega),
          show hist.length - r.cap + (k + 1) = hist.length + 1 - r.cap + k by
            omega]
        rw [← hA_old _ (by omega)]
    · -- first append that fills the ring: cap = seq + 1
      have hceq : r.cap = r.seq + 1 := by omega
      have hd : r.head = r.seq := hnf (by omega)
      have hsz : r.size = r.seq := by omega
      have hwrap : r.head + 1 = r.cap := by omega
      rw [if_pos hwrap] at hk ⊢
      by_cases hke : k = r.head
      · subst hke
        rw [Nat.zero_add, hget_eq,
          show hist.length + 1 - r.cap + r.head = hist.length by omega,
          hA_new]
        rw [hseq]
      · have hklt : k < r.head := by omega
        rw [Nat.zero_add, hget_ne k hke, hc1 (by omega) k (by omega),
          show hist.length + 1 - r.cap + k = k by omega]
        rw [← hA_old _ (by omega)]
  · -- third content clause
    intro hcaple k hk
    rw [hq', hc'] at hcaple
    rw [hh'] at hk
    rw [hh', hlen']
    rw [succ_mod_of_lt r.head r.cap hhead] at hk ⊢
    by_cases hwrap : r.head + 1 = r.cap
    · rw [if_pos hwrap] at hk
      exact absurd hk (by omega)
    · rw [if_neg hwrap] at hk ⊢
      by_cases hfull : r.cap ≤ r.seq
      · by_cases hke : k = r.head
        · subst hke
          rw [hget_eq,
            show hist.length + 1 - (r.head + 1) + r.head = hist.length by
              omega,
            hA_new]
          rw [hseq]
        · have hklt : k < r.head := by omega
          rw [hget_ne k hke, hc3 hfull k hklt,
            show hist.length - r.head + k =
              hist.length + 1 - (r.head + 1) + k by omega]
          rw [← hA_old _ (by omega)]
      · -- not full before: head = seq and cap > seq + 1, so head' = head+1
        -- but then cap ≤ seq + 1 forces cap = seq + 1 = head + 1, contradiction
        have hd : r.head = r.seq := hnf (by omega)
        exact absurd hwrap (by omega)

theorem ringRep_appendList {r : Ring} {hist : List LogEvent}
    (h : RingRep r hist) (xs : List LogEvent) :
    RingRep (appendList r xs).1 (hist ++ xs) := by
  induction xs generalizing r hist with
  | nil => simpa using h
  | cons e rest ih =>
    have h1 := ringRep_append h e
    have h2 := ih h1
    show RingRep (appendList (r.Append e).1 rest).1 _
    rw [show hist ++ e :: rest = (hist ++ [e]) ++ rest by simp]
    exact h2

theorem snapshot_of_rep {r : Ring} {hist : List LogEvent}
    (h : RingRep r hist) :
    r.Snapshot = (assignSeqs hist).drop (hist.length - r.size) := by
  obtain ⟨hcap, hlen, hseq, hsize, hhead, hnf, hc1, hc2, hc3⟩ := h
  have hlenA : (assignSeqs hist).length = hist.length := assignFrom_length 0 hist
  unfold Ring.Snapshot
  by_cases h0 : r.size = 0
  · rw [if_pos h0]
    have hl0 : hist.length = 0 := by omega
    have hA0 : assignSeqs hist = [] :=
      List.eq_nil_of_length_eq_zero (by rw [hlenA, hl0])
    rw [hA0]
    simp
  · rw [if_neg h0]
    by_cases hlt : r.size < r.cap
    · rw [if_pos hlt]
      have hslt : r.seq < r.cap := by omega
      have hsz : r.size = r.seq := by omega
      have hd0 : hist.length - r.size = 0 := by omega
      rw [hd0, List.drop_zero]
      apply List.ext_getElem
      · rw [List.length_take, hlen, hlenA]
        omega
      · intro i h1 h2
        have hi : i < r.size := by
          rw [List.length_take] at h1
          omega
        rw [List.getElem_take]
        have hx := hc1 hslt i hi
        rw [List.getD_eq_getElem _ _ (by omega),
          List.getD_eq_getElem _ _ (by omega)] at hx
        exact hx
    · rw [if_neg hlt]
      have hfull : r.cap ≤ r.seq := by omega
      have hsz : r.size = r.cap := by omega
      apply List.ext_getElem
      · rw [List.length_append, List.length_drop, List.length_take,
          List.length_drop, hlen, hlenA]
        omega
      · intro i h1 h2
        rw [List.length_append, List.length_drop, hlen] at h1
        by_cases hi : i < r.cap - r.head
        · rw [List.getElem_append_left (by rw [List.length_drop, hlen]; omega),
            List.getElem_drop]
          have hx := hc2 hfull i hi
          rw [List.getD_eq_getElem _ _ (by omega),
            List.getD_eq_getElem _ _ (by rw [hlenA]; omega)] at hx
          rw [List.getElem_drop]
          convert hx using 2
          omega
        · rw [List.length_take, hlen] at h1
          rw [List.getElem_append_right (by rw [List.length_drop, hlen]; omega),
            List.getElem_take, List.getElem_drop]
          have hki : i - (r.cap - r.head) < r.head := by omega
          have hx := hc3 hfull _ hki
          rw [List.getD_eq_getElem _ _ (by omega),
            List.getD_eq_getElem _ _ (by rw [hlenA]; omega)] at hx
          convert hx using 2
          · rw [List.length_drop, hlen]
          · omega

theorem getBySeq_of_rep {r : Ring} {hist : List LogEvent}
    (h : RingRep r hist) (hne : hist ≠ []) (s : Nat) :
    (r.GetBySeq s = none ↔ (s < r.OldestSeq ∨ r.CurrentSeq < s)) ∧
    (r.OldestSeq ≤ s → s ≤ r.CurrentSeq →
      r.GetBySeq s = some ((assignSeqs hist).getD (s - 1) default)) := by
  obtain ⟨hcap, hlen, hseq, hsize, hhead, hnf, hc1, hc2, hc3⟩ := h
  have hlenA : (assignSeqs hist).length = hist.length := assignFrom_length 0 hist
  have hlen0 : 0 < hist.length := List.length_pos.mpr hne
  have hsz0 : r.size ≠ 0 := by omega
  have holdest : r.OldestSeq = r.seq - r.size + 1 := by
    unfold Ring.OldestSeq
    rw [if_neg hsz0]
  have hcur : r.CurrentSeq = r.seq := rfl
  have hsome : ∀ t, r.OldestSeq ≤ t → t ≤ r.seq →
      r.GetBySeq t = some ((assignSeqs hist).getD (t - 1) default) := by
    intro t hlo hhi
    rw [holdest] at hlo
    simp only [Ring.GetBySeq]
    rw [if_neg (by omega : ¬(r.size = 0 ∨ t = 0)),
      if_neg (by omega : ¬(t < r.seq - r.size + 1 ∨ r.seq < t))]
    have hseqfield : ∀ i, i < hist.length →
        ((assignSeqs hist).getD i default).Seq = i + 1 := by
      intro i hi
      have hgot := assignFrom_getD_seq 0 hist i hi
      unfold assignSeqs
      omega
    by_cases hltc : r.size < r.cap
    · rw [if_pos hltc]
      have hslt : r.seq < r.cap := by omega
      have hsz : r.size = r.seq := by omega
      have hx := hc1 hslt (t - (r.seq - r.size + 1)) (by omega)
      rw [hx]
      have hidx : t - (r.seq - r.size + 1) = t - 1 := by omega
      rw [hidx]
      rw [if_pos (by rw [hseqfield (t - 1) (by omega)]; omega)]
    · rw [if_neg hltc]
      have hfull : r.cap ≤ r.seq := by omega
      have hsz : r.size = r.cap := by omega
      have hklt : t - (r.seq - r.size + 1) < r.cap := by omega
      rw [add_mod_of_lt_lt r.head _ r.cap hhead hklt]
      by_cases hsum : r.head + (t - (r.seq - r.size + 1)) < r.cap
      · rw [if_pos hsum]
        have hx := hc2 hfull (t - (r.seq - r.size + 1)) (by omega)
        rw [hx,
          show hist.length - r.cap + (t - (r.seq - r.size + 1)) = t - 1 by
            omega]
        rw [if_pos (by rw [hseqfield (t - 1) (by omega)]; omega)]
      · rw [if_neg hsum]
        have hki : r.head + (t - (r.seq - r.size + 1)) - r.cap < r.head := by
          omega
        have hx := hc3 hfull _ hki
        rw [hx,
          show hist.length - r.head +
              (r.head + (t - (r.seq - r.size + 1)) - r.cap) = t - 1 by
            omega]
        rw [if_pos (by rw [hseqfield (t - 1) (by omega)]; omega)]
  have hnone : ∀ t, t < r.OldestSeq ∨ r.seq < t → r.GetBySeq t = none := by
    intro t hcs
    rw [holdest] at hcs
    simp only [Ring.GetBySeq]
    by_cases hs0 : t = 0
    · rw [if_pos (Or.inr hs0)]
    · rw [if_neg (by omega : ¬(r.size = 0 ∨ t = 0)), if_pos hcs]
  constructor
  · rw [hcur]
    constructor
    · intro hres
      by_contra hc
      push_neg at hc
      have := hsome s (by omega) (by omega)
      rw [this] at hres
      cases hres
    · exact hnone s
  · intro h1 h2
    rw [hcur] at h2
    exact hsome s h1 h2

/-- C1: for every capacity C ≥ 1, after appending N ≥ C events the ring's
size is exactly C and its snapshot is exactly the C most recently appended
events (with their assigned sequence numbers), ordered oldest to newest.
The embedding returns a fresh list, so independence from internal storage
is inherent. -/
theorem ring_fill_snapshot (C : Nat) (xs : List LogEvent)
    (hC : 1 ≤ C) (hN : C ≤ xs.length) :
    ((appendList (NewRing C) xs).1).Size = C ∧
    ((appendList (NewRing C) xs).1).Snapshot =
      (assignSeqs xs).drop (xs.length - C) := by
  have hrep : RingRep (appendList (NewRing C) xs).1 xs := by
    simpa using ringRep_appendList (ringRep_new C) xs
  have hcapC : (appendList (NewRing C) xs).1.cap = C := by
    rw [appendList_cap]
    show (if C = 0 then 10000 else C) = C
    rw [if_neg (by omega)]
  have hsizeC : (appendList (NewRing C) xs).1.size = C := by
    have h1 := hrep.hsize
    have h2 := hrep.hseq
    rw [h2, hcapC] at h1
    rw [h1]
    omega
  constructor
  · exact hsizeC
  · rw [snapshot_of_rep hrep, hsizeC]

/-- C1 witness: capacity 2, three appends. -/
theorem ring_fill_snapshot_witness :
    ((appendList (NewRing 2) [mkEvent "a" Severity.SevInfo,
        mkEvent "b" Severity.SevWarn, mkEvent "c" Severity.SevError]).1).Size
        = 2 ∧
    ((appendList (NewRing 2) [mkEvent "a" Severity.SevInfo,
        mkEvent "b" Severity.SevWarn, mkEvent "c" Severity.SevError]).1).Snapshot
        = (assignSeqs [mkEvent "a" Severity.SevInfo,
            mkEvent "b" Severity.SevWarn, mkEvent "c" Severity.SevError]).drop
          ([mkEvent "a" Severity.SevInfo, mkEvent "b" Severity.SevWarn,
            mkEvent "c" Severity.SevError].length - 2) :=
  ring_fill_snapshot 2 _ (by omega) (by simp)

/-- C8 counterexample: on the empty ring both sentinels are 0, so s = 0 is
neither below the oldest nor above the current sequence, yet the lookup
reports not-found; the claimed biconditional fails there. -/
theorem ring_getBySeq_empty_cx :
    Ring.GetBySeq (NewRing 3) 0 = none ∧
    ¬(0 < Ring.OldestSeq (NewRing 3) ∨ Ring.CurrentSeq (NewRing 3) < 0) := by
  constructor
  · rfl
  · decide

/-- C8 (amended): on every non-empty ring, `GetBySeq s` is not-found
exactly when `s` is below the oldest or above the current sequence number,
and inside that window it returns the event that was assigned sequence `s`;
the embedding's lookup is a pure function, so it cannot modify the ring. -/
theorem ring_getBySeq_window (C : Nat) (xs : List LogEvent) (s : Nat)
    (hne : xs ≠ []) :
    ((appendList (NewRing C) xs).1.GetBySeq s = none ↔
      (s < (appendList (NewRing C) xs).1.OldestSeq ∨
        (appendList (NewRing C) xs).1.CurrentSeq < s)) ∧
    ((appendList (NewRing C) xs).1.OldestSeq ≤ s →
      s ≤ (appendList (NewRing C) xs).1.CurrentSeq →
      (appendList (NewRing C) xs).1.GetBySeq s =
        some ((assignSeqs xs).getD (s - 1) default)) := by
  have hrep : RingRep (appendList (NewRing C) xs).1 xs := by
    simpa using ringRep_appendList (ringRep_new C) xs
  exact getBySeq_of_rep hrep hne s

/-- C8 witness: capacity 2, three appends (sequence 1 evicted), lookup of
sequence 2. -/
theorem ring_getBySeq_window_witness :
    ((appendList (NewRing 2) [mkEvent "a" Severity.SevInfo,
        mkEvent "b" Severity.SevWarn, mkEvent "c" Severity.SevError]).1.GetBySeq
        2 = none ↔
      (2 < (appendList (NewRing 2) [mkEvent "a" Severity.SevInfo,
          mkEvent "b" Severity.SevWarn, mkEvent "c" Severity.SevError]).1.OldestSeq ∨
        (appendList (NewRing 2) [mkEvent "a" Severity.SevInfo,
          mkEvent "b" Severity.SevWarn,
          mkEvent "c" Severity.SevError]).1.CurrentSeq < 2)) ∧
    ((appendList (NewRing 2) [mkEvent "a" Severity.SevInfo,
        mkEvent "b" Severity.SevWarn, mkEvent "c" Severity.SevError]).1.OldestSeq
        ≤ 2 →
      2 ≤ (appendList (NewRing 2) [mkEvent "a" Severity.SevInfo,
          mkEvent "b" Severity.SevWarn,
          mkEvent "c" Severity.SevError]).1.CurrentSeq →
      (appendList (NewRing 2) [mkEvent "a" Severity.SevInfo,
          mkEvent "b" Severity.SevWarn, mkEvent "c" Severity.SevError]).1.GetBySeq
          2 =
        some ((assignSeqs [mkEvent "a" Severity.SevInfo,
            mkEvent "b" Severity.SevWarn,
            mkEvent "c" Severity.SevError]).getD (2 - 1) default)) :=
  ring_getBySeq_window 2 _ 2 (by simp)

/-- C10: `Append` hands out sequence numbers 1, 2, 3, ... in order (the
N-th appended event carries sequence N), so no event ever carries 0; the
empty ring's `OldestSeq` and the empty find index's `Next`/`Prev` return
the 0 sentinel, which therefore cannot collide with any real event. -/
theorem ring_seq_numbering (C fcap : Nat) (xs : List LogEvent) :
    (appendList (NewRing C) xs).2 = assignSeqs xs ∧
    (assignSeqs xs).all (fun e => decide (1 ≤ e.Seq)) = true ∧
    Ring.OldestSeq (NewRing C) = 0 ∧
    (FindIndex.Next (NewFindIndex fcap)).1 = 0 ∧
    (FindIndex.Prev (NewFindIndex fcap)).1 = 0 := by
  refine ⟨?_, ?_, rfl, rfl, rfl⟩
  · exact appendList_snd (NewRing C) xs
  · have hall : ∀ (n : Nat) (ys : List LogEvent),
        (assignFrom n ys).all (fun e => decide (1 ≤ e.Seq)) = true := by
      intro n ys
      induction ys generalizing n with
      | nil => rfl
      | cons a t ih =>
        simp only [assignFrom, List.all_cons, ih, Bool.and_true]
        exact decide_eq_true (by omega)
    exact hall 0 xs

/-! ### Find index theorems -/

theorem lowerB_le (l : List Nat) (s : Nat) : lowerB l s ≤ l.length :=
  List.Sublist.length_le (List.takeWhile_sublist _)

theorem take_length_takeWhile (p : Nat → Bool) (l : List Nat) :
    l.take (l.takeWhile p).length = l.takeWhile p := by
  induction l with
  | nil => rfl
  | cons a t ih =>
    by_cases ha : p a
    · simp [List.takeWhile_cons, ha, ih]
    · simp [List.takeWhile_cons, ha]

theorem drop_length_takeWhile (p : Nat → Bool) (l : List Nat) :
    l.drop (l.takeWhile p).length = l.dropWhile p := by
  induction l with
  | nil => rfl
  | cons a t ih =>
    by_cases ha : p a
    · simp [List.takeWhile_cons, List.dropWhile_cons, ha, ih]
    · simp [List.takeWhile_cons, List.dropWhile_cons, ha]

theorem insert_eq_orderedInsert (s : Nat) (l : List Nat) :
    l.takeWhile (fun x => decide (x < s)) ++
        s :: l.dropWhile (fun x => decide (x < s)) =
      List.orderedInsert (· ≤ ·) s l := by
  induction l with
  | nil => rfl
  | cons a t ih =>
    by_cases ha : a < s
    · have hns : ¬s ≤ a := by omega
      simp [List.takeWhile_cons, List.dropWhile_cons, decide_eq_true ha,
        List.orderedInsert, hns, ih]
    · have hsa : s ≤ a := by omega
      have hd : decide (a < s) = false := by simp; omega
      simp [List.takeWhile_cons, List.dropWhile_cons, hd,
        List.orderedInsert, hsa]

theorem mem_dropWhile_ge (s : Nat) (l : List Nat)
    (hs : List.Sorted (· < ·) l) (b : Nat)
    (hb : b ∈ l.dropWhile (fun x => decide (x < s))) : s ≤ b := by
  induction l with
  | nil => simp at hb
  | cons a t ih =>
    by_cases ha : a < s
    · rw [List.dropWhile_cons_of_pos (by simpa using ha)] at hb
      exact ih (List.Sorted.of_cons hs) hb
    · rw [List.dropWhile_cons_of_neg (by simpa using ha)] at hb
      rcases List.mem_cons.mp hb with hba | hbt
      · omega
      · have := (List.sorted_cons.mp hs).1 b hbt
        omega

theorem sorted_insert_lowerB (s : Nat) (l : List Nat)
    (hs : List.Sorted (· < ·) l) (hns : s ∉ l) :
    List.Sorted (· < ·)
      (l.takeWhile (fun x => decide (x < s)) ++
        s :: l.dropWhile (fun x => decide (x < s))) := by
  rw [List.Sorted, List.pairwise_append]
  refine ⟨List.Pairwise.sublist (List.takeWhile_sublist _) hs, ?_, ?_⟩
  · rw [List.pairwise_cons]
    refine ⟨?_, List.Pairwise.sublist (List.dropWhile_sublist _) hs⟩
    intro b hb
    have h1 : s ≤ b := mem_dropWhile_ge s l hs b hb
    have h2 : b ∈ l := (List.dropWhile_sublist _).mem hb
    have h3 : b ≠ s := fun hcontra => hns (hcontra ▸ h2)
    omega
  · intro a ha b hb
    have haS : a < s := by simpa using List.mem_takeWhile_imp ha
    rcases List.mem_cons.mp hb with rfl | hbt
    · exact haS
    · have : s ≤ b := mem_dropWhile_ge s l hs b hbt
      omega

theorem lowerB_mem (l : List Nat) (s : Nat) (hs : List.Sorted (· < ·) l)
    (hmem : s ∈ l) : lowerB l s < l.length ∧ l.getD (lowerB l s) 0 = s := by
  induction l with
  | nil => simp at hmem
  | cons a t ih =>
    by_cases ha : a < s
    · have hst : s ∈ t := by
        rcases List.mem_cons.mp hmem with heq | h
        · omega
        · exact h
      have hih := ih (List.Sorted.of_cons hs) hst
      unfold lowerB at hih ⊢
      rw [List.takeWhile_cons, decide_eq_true ha]
      simp only [if_true, List.length_cons, List.getD_cons_succ]
      exact ⟨by omega, hih.2⟩
    · have hsa : s = a := by
        rcases List.mem_cons.mp hmem with heq | hst
        · exact heq
        · have := (List.sorted_cons.mp hs).1 s hst
          omega
      unfold lowerB
      rw [List.takeWhile_cons]
      have hd : decide (a < s) = false := by simp; omega
      rw [hd]
      simp [hsa.symm]

theorem lowerB_not_mem (l : List Nat) (s : Nat) (hnm : s ∉ l) :
    ¬(lowerB l s < l.length ∧ l.getD (lowerB l s) 0 = s) := by
  rintro ⟨h1, h2⟩
  apply hnm
  rw [List.getD_eq_getElem _ _ h1] at h2
  exact h2 ▸ List.getElem_mem h1

theorem lowerB_eq_countP (l : List Nat) (s : Nat)
    (hs : List.Sorted (· < ·) l) :
    lowerB l s = l.countP (fun x => decide (x < s)) := by
  induction l with
  | nil => rfl
  | cons a t ih =>
    by_cases ha : a < s
    · unfold lowerB at ih ⊢
      rw [List.takeWhile_cons, decide_eq_true ha, List.countP_cons,
        decide_eq_true ha]
      simp [ih (List.Sorted.of_cons hs)]
    · unfold lowerB
      have hd : decide (a < s) = false := by simp; omega
      rw [List.takeWhile_cons, hd, List.countP_cons, hd]
      have hz : t.countP (fun x => decide (x < s)) = 0 := by
        rw [List.countP_eq_zero]
        intro x hx
        have := (List.sorted_cons.mp hs).1 x hx
        simp
        omega
      simp [hz]

/-- C9: every find-index operation preserves the strictly-increasing,
duplicate-free match list; `AddMatch` is a no-op on a present sequence and
otherwise inserts in sorted position, evicting the smallest entries (a
front prefix of the sorted insert) down to capacity; an eviction that
covers the cursor's index invalidates the cursor (sets it to -1), both in
`AddMatch` and in `RemoveOldMatches` (whose cutoff is the number of
matches below the threshold). -/
theorem findIndex_invariants (fi : FindIndex) (s oldest : Nat)
    (m : TextMatcher) (hs : List.Sorted (· < ·) fi.matchesList) :
    List.Sorted (· < ·) (fi.SetMatcher m).matchesList ∧
    List.Sorted (· < ·) (fi.AddMatch s).matchesList ∧
    (fi.AddMatch s).matchesList.Nodup ∧
    List.Sorted (· < ·) (fi.RemoveOldMatches oldest).matchesList ∧
    List.Sorted (· < ·) fi.Next.2.matchesList ∧
    List.Sorted (· < ·) fi.Prev.2.matchesList ∧
    List.Sorted (· < ·) (fi.SetCurrentBySeq s).2.matchesList ∧
    (s ∈ fi.matchesList → fi.AddMatch s = fi) ∧
    (s ∉ fi.matchesList →
      (fi.AddMatch s).matchesList =
        (List.orderedInsert (· ≤ ·) s fi.matchesList).drop
          (fi.matchesList.length + 1 - fi.maxCap)) ∧
    (s ∉ fi.matchesList → fi.maxCap < fi.matchesList.length + 1 →
      0 ≤ fi.current →
      fi.current < ((fi.matchesList.length + 1 - fi.maxCap : Nat) : Int) →
      (fi.AddMatch s).current = -1) ∧
    (0 ≤ fi.current →
      fi.current <
        ((fi.matchesList.countP (fun x => decide (x < oldest)) : Nat) : Int) →
      (fi.RemoveOldMatches oldest).current = -1) := by
  have hins : fi.matchesList.take (lowerB fi.matchesList s) ++
      s :: fi.matchesList.drop (lowerB fi.matchesList s) =
        List.orderedInsert (· ≤ ·) s fi.matchesList := by
    unfold lowerB
    rw [take_length_takeWhile, drop_length_takeWhile,
      insert_eq_orderedInsert]
  have hinslen : (fi.matchesList.take (lowerB fi.matchesList s) ++
      s :: fi.matchesList.drop (lowerB fi.matchesList s)).length =
        fi.matchesList.length + 1 := by
    rw [List.length_append, List.length_take, List.length_cons,
      List.length_drop]
    have := lowerB_le fi.matchesList s
    omega
  have hsortedIns : s ∉ fi.matchesList →
      List.Sorted (· < ·) (fi.matchesList.take (lowerB fi.matchesList s) ++
        s :: fi.matchesList.drop (lowerB fi.matchesList s)) := by
    intro hns
    unfold lowerB
    rw [take_length_takeWhile, drop_length_takeWhile]
    exact sorted_insert_lowerB s fi.matchesList hs hns
  have haddSorted : List.Sorted (· < ·) (fi.AddMatch s).matchesList := by
    unfold FindIndex.AddMatch
    by_cases hdup : lowerB fi.matchesList s < fi.matchesList.length ∧
        fi.matchesList.getD (lowerB fi.matchesList s) 0 = s
    · rw [if_pos hdup]
      exact hs
    · rw [if_neg hdup]
      have hns : s ∉ fi.matchesList := by
        intro hmem
        exact hdup (lowerB_mem fi.matchesList s hs hmem)
      dsimp only
      by_cases hev : fi.maxCap <
          (fi.matchesList.take (lowerB fi.matchesList s) ++
            s :: fi.matchesList.drop (lowerB fi.matchesList s)).length
      · rw [if_pos hev]
        exact List.Pairwise.sublist (List.drop_sublist _ _) (hsortedIns hns)
      · rw [if_neg hev]
        exact hsortedIns hns
  refine ⟨List.sorted_nil, haddSorted, haddSorted.nodup, ?_, ?_, ?_, ?_,
    ?_, ?_, ?_, ?_⟩
  · unfold FindIndex.RemoveOldMatches
    dsimp only
    by_cases hcut : 0 < lowerB fi.matchesList oldest
    · rw [if_pos hcut]
      exact List.Pairwise.sublist (List.drop_sublist _ _) hs
    · rw [if_neg hcut]
      exact hs
  · unfold FindIndex.Next
    dsimp only
    by_cases h0 : fi.matchesList.length = 0
    · rw [if_pos h0]
      exact hs
    · rw [if_neg h0]
      by_cases h1 : fi.current < (fi.matchesList.length : Int) - 1
      · rw [if_pos h1]
        exact hs
      · rw [if_neg h1]
        exact hs
  · unfold FindIndex.Prev
    dsimp only
    by_cases h0 : fi.matchesList.length = 0
    · rw [if_pos h0]
      exact hs
    · rw [if_neg h0]
      by_cases h1 : 0 < fi.current
      · rw [if_pos h1]
        exact hs
      · rw [if_neg h1]
        exact hs
  · unfold FindIndex.SetCurrentBySeq
    dsimp only
    by_cases h1 : lowerB fi.matchesList s < fi.matchesList.length ∧
        fi.matchesList.getD (lowerB fi.matchesList s) 0 = s
    · rw [if_pos h1]
      exact hs
    · rw [if_neg h1]
      exact hs
  · intro hmem
    unfold FindIndex.AddMatch
    rw [if_pos (lowerB_mem fi.matchesList s hs hmem)]
  · intro hns
    unfold FindIndex.AddMatch
    rw [if_neg (lowerB_not_mem fi.matchesList s hns)]
    dsimp only
    by_cases hev : fi.maxCap <
        (fi.matchesList.take (lowerB fi.matchesList s) ++
          s :: fi.matchesList.drop (lowerB fi.matchesList s)).length
    · rw [if_pos hev]
      dsimp only
      rw [← hins, hinslen]
    · rw [if_neg hev]
      dsimp only
      rw [hinslen] at hev
      rw [← hins,
        show fi.matchesList.length + 1 - fi.maxCap = 0 by omega,
        List.drop_zero]
  · intro hns hover hcur hevict
    unfold FindIndex.AddMatch
    rw [if_neg (lowerB_not_mem fi.matchesList s hns)]
    dsimp only
    rw [hinslen, if_pos hover]
    dsimp only
    rw [if_pos hcur, if_pos (by omega)]
  · intro hcur hclt
    have hcnt := lowerB_eq_countP fi.matchesList oldest hs
    unfold FindIndex.RemoveOldMatches
    dsimp only
    rw [hcnt, if_pos (by omega)]
    dsimp only
    rw [if_pos hcur, if_pos (by omega)]

/-- C9 witness: a sorted three-element index at capacity 3 with the cursor
on the first entry; inserting 1 evicts it and invalidates the cursor. -/
theorem findIndex_invariants_witness :
    (let fi : FindIndex := FindIndex.mk
      (TextMatcher.mk "" false (fun _ => false) "") [2, 5, 9] 0 3;
     List.Sorted (· < ·) (fi.SetMatcher fi.matcher).matchesList ∧
     List.Sorted (· < ·) (fi.AddMatch 1).matchesList ∧
     (fi.AddMatch 1).matchesList.Nodup ∧
     List.Sorted (· < ·) (fi.RemoveOldMatches 1).matchesList ∧
     List.Sorted (· < ·) fi.Next.2.matchesList ∧
     List.Sorted (· < ·) fi.Prev.2.matchesList ∧
     List.Sorted (· < ·) (fi.SetCurrentBySeq 1).2.matchesList ∧
     (1 ∈ fi.matchesList → fi.AddMatch 1 = fi) ∧
     (1 ∉ fi.matchesList →
       (fi.AddMatch 1).matchesList =
         (List.orderedInsert (· ≤ ·) 1 fi.matchesList).drop
           (fi.matchesList.length + 1 - fi.maxCap)) ∧
     (1 ∉ fi.matchesList → fi.maxCap < fi.matchesList.length + 1 →
       0 ≤ fi.current →
       fi.current < ((fi.matchesList.length + 1 - fi.maxCap : Nat) : Int) →
       (fi.AddMatch 1).current = -1) ∧
     (0 ≤ fi.current →
       fi.current <
         ((fi.matchesList.countP (fun x => decide (x < 1)) : Nat) : Int) →
       (fi.RemoveOldMatches 1).current = -1)) :=
  findIndex_invariants _ 1 1 _ (by decide)

/-! ### Sanitizer theorems -/

theorem csiEnd_none (b : Nat) (rest : List Nat) (hb : b ≠ 27) :
    csiEnd (b :: rest) = none := by
  cases rest with
  | nil => rfl
  | cons b2 v =>
    simp [csiEnd, hb]

theorem oscEnd_none (b : Nat) (rest : List Nat) (hb : b ≠ 27) :
    oscEnd (b :: rest) = none := by
  cases rest with
  | nil => rfl
  | cons b2 v =>
    simp [oscEnd, hb]

theorem dcsEnd_none (b : Nat) (rest : List Nat) (hb : b ≠ 27) :
    dcsEnd (b :: rest) = none := by
  cases rest with
  | nil => rfl
  | cons b2 v =>
    simp [dcsEnd, hb]

theorem escEnd_none (b : Nat) (rest : List Nat) (hb : b ≠ 27) :
    escEnd (b :: rest) = none := by
  cases rest with
  | nil => rfl
  | cons b2 v =>
    simp [escEnd, hb]

theorem stripGo_nil (f : List Nat → Option (List Nat)) (fuel : Nat) :
    stripGo f fuel [] = [] := by
  cases fuel <;> rfl

theorem stripGo_id (f : List Nat → Option (List Nat))
    (hf : ∀ b rest, b ≠ 27 → f (b :: rest) = none) :
    ∀ fuel l, 27 ∉ l → stripGo f fuel l = l := by
  intro fuel
  induction fuel with
  | zero => intro l _; rfl
  | succ n ih =>
    intro l hl
    cases l with
    | nil => rfl
    | cons b rest =>
      have hb : b ≠ 27 := fun h => hl (h ▸ List.mem_cons_self b rest)
      simp only [stripGo, hf b rest hb]
      rw [ih rest (fun h => hl (List.mem_cons_of_mem b h))]

theorem stripAllOf_id (f : List Nat → Option (List Nat))
    (hf : ∀ b rest, b ≠ 27 → f (b :: rest) = none) (l : List Nat)
    (hl : 27 ∉ l) : stripAllOf f l = l :=
  stripGo_id f hf l.length l hl

theorem suffix_getLast? {w l : List Nat} (h : w <:+ l) (hw : w ≠ []) :
    w.getLast? = l.getLast? := by
  obtain ⟨t, ht⟩ := h
  rw [← ht, List.getLast?_append_of_ne_nil t hw]

theorem csiEnd_suffix (l w : List Nat) (h : csiEnd l = some w) :
    w <:+ l ∧ (w = [] → l.getLast? ≠ some 13) := by
  cases l with
  | nil => simp [csiEnd] at h
  | cons b1 rest =>
    cases rest with
    | nil => simp [csiEnd] at h
    | cons b2 v =>
      simp only [csiEnd] at h
      by_cases hc : b1 = 27 ∧ b2 = 91
      · rw [if_pos hc] at h
        have h3 : v.dropWhile (fun b => decide (48 ≤ b ∧ b ≤ 63)) <:+ v :=
          List.dropWhile_suffix _
        have h2 : (v.dropWhile (fun b => decide (48 ≤ b ∧ b ≤ 63))).dropWhile
            (fun b => decide (32 ≤ b ∧ b ≤ 47)) <:+
              v.dropWhile (fun b => decide (48 ≤ b ∧ b ≤ 63)) :=
          List.dropWhile_suffix _
        have h4 : v <:+ b1 :: b2 :: v :=
          (List.suffix_cons b2 v).trans (List.suffix_cons b1 _)
        cases hm : (v.dropWhile (fun b => decide (48 ≤ b ∧ b ≤ 63))).dropWhile
            (fun b => decide (32 ≤ b ∧ b ≤ 47)) with
        | nil => rw [hm] at h; simp at h
        | cons c w2 =>
          rw [hm] at h
          dsimp only at h
          by_cases hf : 64 ≤ c ∧ c ≤ 126
          · rw [if_pos hf] at h
            have hww : w = w2 := (Option.some.inj h).symm
            subst hww
            rw [hm] at h2
            have hsl : w <:+ b1 :: b2 :: v :=
              ((List.suffix_cons c w).trans h2).trans (h3.trans h4)
            refine ⟨hsl, ?_⟩
            intro hwe
            subst hwe
            have hcw : [c] <:+ b1 :: b2 :: v := (h2.trans h3).trans h4
            rw [← suffix_getLast? hcw (by simp)]
            simp
            omega
          · rw [if_neg hf] at h
            simp at h
      · rw [if_neg hc] at h
        simp at h

theorem oscEnd_suffix (l w : List Nat) (h : oscEnd l = some w) :
    w <:+ l ∧ (w = [] → l.getLast? ≠ some 13) := by
  cases l with
  | nil => simp [oscEnd] at h
  | cons b1 rest =>
    cases rest with
    | nil => simp [oscEnd] at h
    | cons b2 v =>
      simp only [oscEnd] at h
      by_cases hc : b1 = 27 ∧ b2 = 93
      · rw [if_pos hc] at h
        have hsv : v.dropWhile (fun b => decide (32 ≤ b ∧ b ≤ 126)) <:+ v :=
          List.dropWhile_suffix _
        have h4 : v <:+ b1 :: b2 :: v :=
          (List.suffix_cons b2 v).trans (List.suffix_cons b1 _)
        split at h
        · -- terminator BEL
          rename_i w2 heq
          have hww : w = w2 := (Option.some.inj h).symm
          subst hww
          rw [heq] at hsv
          refine ⟨((List.suffix_cons 7 w).trans hsv).trans h4, ?_⟩
          intro hwe
          subst hwe
          have hcw : [7] <:+ b1 :: b2 :: v := hsv.trans h4
          rw [← suffix_getLast? hcw (by simp)]
          simp
        · -- terminator ESC backslash
          rename_i w2 heq
          have hww : w = w2 := (Option.some.inj h).symm
          subst hww
          rw [heq] at hsv
          refine ⟨(((List.suffix_cons 92 w).trans
            (List.suffix_cons 27 _)).trans hsv).trans h4, ?_⟩
          intro hwe
          subst hwe
          have hcw : [27, 92] <:+ b1 :: b2 :: v := hsv.trans h4
          rw [← suffix_getLast? hcw (by simp)]
          simp
        · simp at h
      · rw [if_neg hc] at h
        simp at h

theorem dcsScan_suffix (v : List Nat) : ∀ w, dcsScan v = some w →
    w <:+ v ∧ (w = [] → v.getLast? ≠ some 13) := by
  induction v with
  | nil => intro w h; simp [dcsScan] at h
  | cons b rest ih =>
    intro w h
    simp only [dcsScan] at h
    by_cases h1 : b = 27 ∧ rest.head? = some 92
    · rw [if_pos h1] at h
      have hww : rest.tail = w := Option.some.inj h
      subst hww
      have hrest : rest = 92 :: rest.tail := by
        cases rest with
        | nil => simp at h1
        | cons c t =>
          have : c = 92 := by simpa using h1.2
          simp [this]
      constructor
      · have hst : rest.tail <:+ rest := by
          conv_rhs => rw [hrest]
          exact List.suffix_cons 92 _
        exact hst.trans (List.suffix_cons b rest)
      · intro hwe
        rw [show b :: rest = [b] ++ rest from rfl,
          List.getLast?_append_of_ne_nil _ (by rw [hrest]; simp)]
        rw [hrest, hwe]
        simp
    · rw [if_neg h1] at h
      by_cases h2 : b = 7
      · rw [if_pos h2] at h
        have hww : rest = w := Option.some.inj h
        subst hww
        refine ⟨List.suffix_cons b _, ?_⟩
        intro hwe
        rw [hwe]
        simp [h2]
      · rw [if_neg h2] at h
        obtain ⟨hsuf, hemp⟩ := ih w h
        refine ⟨hsuf.trans (List.suffix_cons b rest), ?_⟩
        intro hwe
        have hrne : rest ≠ [] := by
          intro hre
          rw [hre] at h
          simp [dcsScan] at h
        rw [show b :: rest = [b] ++ rest from rfl,
          List.getLast?_append_of_ne_nil _ hrne]
        exact hemp hwe

theorem dcsEnd_suffix (l w : List Nat) (h : dcsEnd l = some w) :
    w <:+ l ∧ (w = [] → l.getLast? ≠ some 13) := by
  cases l with
  | nil => simp [dcsEnd] at h
  | cons b1 rest =>
    cases rest with
    | nil => simp [dcsEnd] at h
    | cons b2 v =>
      simp only [dcsEnd] at h
      by_cases hc : b1 = 27 ∧ (b2 = 80 ∨ b2 = 94 ∨ b2 = 95 ∨ b2 = 88)
      · rw [if_pos hc] at h
        obtain ⟨hsuf, hemp⟩ := dcsScan_suffix v w h
        refine ⟨hsuf.trans ((List.suffix_cons b2 v).trans
          (List.suffix_cons b1 _)), ?_⟩
        intro hwe
        have hvne : v ≠ [] := by
          intro hve
          rw [hve] at h
          simp [dcsScan] at h
        rw [show b1 :: b2 :: v = [b1, b2] ++ v from rfl,
          List.getLast?_append_of_ne_nil _ hvne]
        exact hemp hwe
      · rw [if_neg hc] at h
        simp at h

theorem escEnd_suffix (l w : List Nat) (h : escEnd l = some w) :
    w <:+ l ∧ (w = [] → l.getLast? ≠ some 13) := by
  cases l with
  | nil => simp [escEnd] at h
  | cons b1 rest =>
    cases rest with
    | nil => simp [escEnd] at h
    | cons b2 v =>
      simp only [escEnd] at h
      by_cases hc : b1 = 27 ∧ ((48 ≤ b2 ∧ b2 ≤ 57) ∨ (65 ≤ b2 ∧ b2 ≤ 90) ∨
          (97 ≤ b2 ∧ b2 ≤ 122))
      · rw [if_pos hc] at h
        have hww : w = v := (Option.some.inj h).symm
        subst hww
        refine ⟨(List.suffix_cons b2 w).trans (List.suffix_cons b1 _), ?_⟩
        intro hwe
        rw [hwe]
        simp
        omega
      · rw [if_neg hc] at h
        simp at h

theorem stripGo_last13 (f : List Nat → Option (List Nat))
    (hf : ∀ l w, f l = some w → w <:+ l ∧ (w = [] → l.getLast? ≠ some 13)) :
    ∀ fuel l, l.getLast? = some 13 →
      (stripGo f fuel l).getLast? = some 13 := by
  intro fuel
  induction fuel with
  | zero => intro l hl; exact hl
  | succ n ih =>
    intro l hl
    cases l with
    | nil => simp at hl
    | cons b rest =>
      cases hres : f (b :: rest) with
      | some w =>
        obtain ⟨hsuf, hemp⟩ := hf _ _ hres
        have hwne : w ≠ [] := fun hwe => (hemp hwe) hl
        have hw13 : w.getLast? = some 13 := by
          rw [suffix_getLast? hsuf hwne]
          exact hl
        simp only [stripGo, hres]
        exact ih w hw13
      | none =>
        simp only [stripGo, hres]
        cases hrest : rest with
        | nil =>
          have hb13 : b = 13 := by
            rw [hrest] at hl
            simpa using hl
          rw [stripGo_nil]
          simpa using hb13
        | cons c t =>
          have hrl : rest.getLast? = some 13 := by
            rw [hrest]
            rw [hrest] at hl
            exact hl
          have hres13 := ih rest hrl
          have hne : stripGo f n rest ≠ [] := by
            intro hz
            rw [hz] at hres13
            simp at hres13
          rw [← hrest,
            show b :: stripGo f n rest = [b] ++ stripGo f n rest from rfl,
            List.getLast?_append_of_ne_nil _ hne]
          exact hres13

theorem c0sp_good (b : Nat) : 32 ≤ c0sp b ∨ c0sp b = 9 ∨ c0sp b = 10 ∨
    c0sp b = 13 := by
  unfold c0sp
  split_ifs <;> omega

theorem c0sp_id_of_good (b : Nat)
    (h : 32 ≤ b ∨ b = 9 ∨ b = 10 ∨ b = 13) : c0sp b = b := by
  unfold c0sp
  split_ifs <;> omega

theorem c0sp_eq13 (b : Nat) (h : c0sp b = 13) : b = 13 := by
  unfold c0sp at h
  split_ifs at h <;> omega

theorem crNorm_getLast13 (s : List Nat) (hl : s.getLast? = some 13) :
    (crNorm s).getLast? = some 13 := by
  unfold crNorm
  rw [if_pos (List.mem_of_mem_getLast? hl), if_pos hl, List.getLast?_concat]

theorem crNorm_dropLast_ne13 (s : List Nat) :
    ∀ b ∈ (crNorm s).dropLast, b ≠ 13 := by
  unfold crNorm
  by_cases hmem : 13 ∈ s
  · rw [if_pos hmem]
    by_cases hl : s.getLast? = some 13
    · rw [if_pos hl, List.dropLast_concat]
      intro b hb
      obtain ⟨a, _, hab⟩ := List.mem_map.mp hb
      intro h13
      rw [h13] at hab
      split at hab <;> omega
    · rw [if_neg hl]
      intro b hb
      have hb2 := (List.dropLast_sublist _).mem hb
      obtain ⟨a, _, hab⟩ := List.mem_map.mp hb2
      intro h13
      rw [h13] at hab
      split at hab <;> omega
  · rw [if_neg hmem]
    intro b hb
    intro h13
    exact hmem (h13 ▸ (List.dropLast_sublist _).mem hb)

theorem crNorm_id (s : List Nat) (hnd : ∀ b ∈ s.dropLast, b ≠ 13) :
    crNorm s = s := by
  unfold crNorm
  by_cases hmem : 13 ∈ s
  · rw [if_pos hmem]
    have hsne : s ≠ [] := by
      intro h
      rw [h] at hmem
      simp at hmem
    have hlast13 : s.getLast hsne = 13 := by
      have hsplit := List.dropLast_concat_getLast hsne
      rw [← hsplit] at hmem
      rcases List.mem_append.mp hmem with h1 | h2
      · exact absurd rfl (hnd 13 h1)
      · have := List.mem_singleton.mp h2
        omega
    have hl : s.getLast? = some 13 := by
      rw [List.getLast?_eq_getLast s hsne, hlast13]
    rw [if_pos hl]
    have hmap : s.dropLast.map (fun b => if b = 13 then 32 else b) =
        s.dropLast := by
      have heq : s.dropLast.map (fun b => if b = 13 then 32 else b) =
          s.dropLast.map id := by
        refine List.map_eq_map_iff.mpr ?_
        intro a ha
        have := hnd a ha
        simp [this]
      rw [heq, List.map_id]
    rw [hmap, ← hlast13]
    exact List.dropLast_concat_getLast hsne
  · rw [if_neg hmem]

theorem crNorm_no8 (s : List Nat) (h8 : 8 ∉ s) : 8 ∉ crNorm s := by
  unfold crNorm
  have hmapno8 : ∀ (l : List Nat), (∀ b ∈ l, b ≠ 8) →
      8 ∉ l.map (fun b => if b = 13 then 32 else b) := by
    intro l hl hmem
    obtain ⟨a, ha, hab⟩ := List.mem_map.mp hmem
    have := hl a ha
    split at hab <;> omega
  by_cases hmem : 13 ∈ s
  · rw [if_pos hmem]
    by_cases hl : s.getLast? = some 13
    · rw [if_pos hl]
      intro hin
      rcases List.mem_append.mp hin with h1 | h2
      · exact hmapno8 s.dropLast
          (fun b hb hb8 => h8 (hb8 ▸ (List.dropLast_sublist _).mem hb)) h1
      · simp at h2
    · rw [if_neg hl]
      exact hmapno8 s (fun b hb hb8 => h8 (hb8 ▸ hb))
  · rw [if_neg hmem]
    exact h8

theorem filter8_dropLast_ne13 (v : List Nat)
    (h : ∀ b ∈ v.dropLast, b ≠ 13) :
    ∀ b ∈ (v.filter (fun b => b ≠ 8)).dropLast, b ≠ 13 := by
  intro b hb
  by_cases hv : v = []
  · rw [hv] at hb
    simp at hb
  · have hsplit := List.dropLast_concat_getLast hv
    rw [← hsplit, List.filter_append] at hb
    by_cases h8 : v.getLast hv = 8
    · have hz : List.filter (fun b => b ≠ 8) [v.getLast hv] = [] := by
        simp [h8]
      rw [hz, List.append_nil] at hb
      exact h b ((List.filter_sublist _).mem ((List.dropLast_sublist _).mem hb))
    · have hz : List.filter (fun b => b ≠ 8) [v.getLast hv] =
          [v.getLast hv] := by
        simp [h8]
      rw [hz, List.dropLast_concat] at hb
      exact h b ((List.filter_sublist _).mem hb)

theorem filter8_last13 (v : List Nat) (hv : v.getLast? = some 13) :
    (v.filter (fun b => b ≠ 8)).getLast? = some 13 := by
  have hvne : v ≠ [] := by
    intro h
    rw [h] at hv
    simp at hv
  have hlast : v.getLast hvne = 13 := by
    have := List.getLast?_eq_getLast v hvne
    rw [this] at hv
    exact Option.some.inj hv
  have hsplit := List.dropLast_concat_getLast hvne
  rw [← hsplit, List.filter_append, hlast]
  have hz : List.filter (fun b => b ≠ 8) [13] = [13] := by simp
  rw [hz, List.getLast?_concat]

/-- With no escape byte anywhere, the four regex passes change nothing. -/
theorem sanitize_noesc (s : List Nat) (h27 : 27 ∉ s) (hne : s ≠ []) :
    SanitizeLine s = ((crNorm s).filter (fun b => b ≠ 8)).map c0sp := by
  simp only [SanitizeLine, if_neg hne]
  rw [stripAllOf_id oscEnd oscEnd_none s h27,
    stripAllOf_id dcsEnd dcsEnd_none s h27,
    stripAllOf_id csiEnd csiEnd_none s h27,
    stripAllOf_id escEnd escEnd_none s h27]

/-- Every byte of a sanitized line is printable or tab/newline/CR. -/
theorem sanitize_good (s : List Nat) :
    ∀ b ∈ SanitizeLine s, 32 ≤ b ∨ b = 9 ∨ b = 10 ∨ b = 13 := by
  by_cases hne : s = []
  · rw [hne]
    intro b hb
    simp [SanitizeLine] at hb
  · simp only [SanitizeLine, if_neg hne]
    intro b hb
    obtain ⟨a, _, rfl⟩ := List.mem_map.mp hb
    exact c0sp_good a

/-- A sanitized line carries no carriage return before its last byte. -/
theorem sanitize_dropLast_ne13 (s : List Nat) :
    ∀ b ∈ (SanitizeLine s).dropLast, b ≠ 13 := by
  by_cases hne : s = []
  · rw [hne]
    intro b hb
    simp [SanitizeLine] at hb
  · simp only [SanitizeLine, if_neg hne]
    intro b hb
    rw [← List.map_dropLast] at hb
    obtain ⟨a, ha, rfl⟩ := List.mem_map.mp hb
    intro hc13
    have ha13 := c0sp_eq13 a hc13
    exact filter8_dropLast_ne13 _ (crNorm_dropLast_ne13 _) a ha ha13

/-- A trailing carriage return survives sanitizing. -/
theorem sanitize_trailing13 (s : List Nat) (hl : s.getLast? = some 13) :
    (SanitizeLine s).getLast? = some 13 := by
  have hne : s ≠ [] := by
    intro h
    rw [h] at hl
    simp at hl
  simp only [SanitizeLine, if_neg hne]
  have h1 : (stripAllOf oscEnd s).getLast? = some 13 :=
    stripGo_last13 oscEnd oscEnd_suffix s.length s hl
  have h2 : (stripAllOf dcsEnd (stripAllOf oscEnd s)).getLast? = some 13 :=
    stripGo_last13 dcsEnd dcsEnd_suffix _ _ h1
  have h3 : (stripAllOf csiEnd (stripAllOf dcsEnd
      (stripAllOf oscEnd s))).getLast? = some 13 :=
    stripGo_last13 csiEnd csiEnd_suffix _ _ h2
  have h4 : (stripAllOf escEnd (stripAllOf csiEnd (stripAllOf dcsEnd
      (stripAllOf oscEnd s)))).getLast? = some 13 :=
    stripGo_last13 escEnd escEnd_suffix _ _ h3
  have h5 := crNorm_getLast13 _ h4
  have h6 := filter8_last13 _ h5
  rw [List.getLast?_map, h6]
  rfl

/-- C5 counterexample: sanitizing the bytes of a backspace between two
letters removes the backspace entirely; it is not replaced by a space, as
the claim says it should be. -/
theorem sanitizeLine_backspace_cx :
    SanitizeLine [97, 8, 98] = [97, 98] ∧
    SanitizeLine [97, 8, 98] ≠ [97, 32, 98] := by
  decide

/-- C5 (corrected): every byte of a sanitized line is printable or one of
tab, newline, carriage return; no carriage return occurs before the last
byte (in-line CRs became spaces); a trailing carriage return is preserved;
on escape-free input the sanitizer is exactly CR-normalisation followed by
deleting backspaces and widening the remaining control bytes (other than
tab and newline) to spaces — in particular, on escape-free CR-free input a
backspace is removed entirely rather than replaced by a space. -/
theorem sanitizeLine_rules :
    (∀ s : List Nat, ∀ b ∈ SanitizeLine s,
        32 ≤ b ∨ b = 9 ∨ b = 10 ∨ b = 13) ∧
    (∀ s : List Nat, ∀ b ∈ (SanitizeLine s).dropLast, b ≠ 13) ∧
    (∀ s : List Nat, s.getLast? = some 13 →
        (SanitizeLine s).getLast? = some 13) ∧
    (∀ s : List Nat, 27 ∉ s → s ≠ [] →
        SanitizeLine s = ((crNorm s).filter (fun b => b ≠ 8)).map c0sp) ∧
    (∀ s : List Nat, 27 ∉ s → 13 ∉ s → s ≠ [] →
        SanitizeLine s = (s.filter (fun b => b ≠ 8)).map c0sp) := by
  refine ⟨sanitize_good, sanitize_dropLast_ne13, sanitize_trailing13,
    sanitize_noesc, ?_⟩
  intro s h27 h13 hne
  rw [sanitize_noesc s h27 hne,
    crNorm_id s (fun b hb hb13 =>
      h13 (hb13 ▸ (List.dropLast_sublist _).mem hb))]

/-- C6: the sanitizer is idempotent on every byte string, and on the three
example strings it produces exactly the outputs the specification lists. -/
theorem sanitizeLine_idempotent :
    (∀ s : List Nat, SanitizeLine (SanitizeLine s) = SanitizeLine s) ∧
    SanitizeLine (bytesOf "start\x1b[2K\x1b[31mred\x1b[0m end") =
      bytesOf "startred end" ∧
    SanitizeLine (bytesOf "foo\rbar") = bytesOf "foo bar" ∧
    SanitizeLine (bytesOf "line\r") = bytesOf "line\r" := by
  refine ⟨?_, by decide, by decide, by decide⟩
  intro s
  by_cases htne : SanitizeLine s = []
  · rw [htne]
    simp [SanitizeLine]
  · have hgood := sanitize_good s
    have h27 : 27 ∉ SanitizeLine s := by
      intro h
      have := hgood 27 h
      omega
    rw [sanitize_noesc _ h27 htne,
      crNorm_id _ (fun b hb => sanitize_dropLast_ne13 s b hb)]
    have hfil : (SanitizeLine s).filter (fun b => b ≠ 8) = SanitizeLine s := by
      refine List.filter_eq_self.mpr ?_
      intro b hb
      have := hgood b hb
      simp only [ne_eq, decide_eq_true_eq]
      omega
    rw [hfil]
    have hmap : (SanitizeLine s).map c0sp = (SanitizeLine s).map id :=
      List.map_eq_map_iff.mpr (fun a ha => c0sp_id_of_good a (hgood a ha))
    rw [hmap, List.map_id]

end Siftail
